import Mathlib

/-!
Verification of the arena allocator in `src/c/arena.c` / `src/c/arena.h`
(Arena_with_Markers).

The C code is shallowly embedded: machine addresses are `Nat`, `size_t`
arithmetic wraps modulo `2 ^ 64` where the C wraps, the byte store is a
total function `Nat → Nat`, and the heap blocks obtained from `malloc`
are modelled as records placed at fresh, pairwise disjoint address
ranges (a monotone `fresh` counter stands for `malloc` handing out
disjoint regions; `malloc` is assumed to succeed).  The chain of
`Arena_t` records is the list `blocks` (head = root); the marker array
lives on the root only, exactly as in the C, and is the list `markers`
(index 0 = bottom of the stack, last = top).
-/

/-- `size_t` modulus: the C code computes sizes in 64-bit `size_t`. -/
def W64 : Nat := 2 ^ 64

/-- ARENA_DEFAULT_SIZE from arena.h. -/
def ARENA_DEFAULT_SIZE : Nat := 1024 * 1024

/-- ARENA_INITIAL_MARKER_CAP from arena.h. -/
def ARENA_INITIAL_MARKER_CAP : Nat := 16

/-- ARENA_ALIGNMENT from arena.h. -/
def ARENA_ALIGNMENT : Nat := 8

/-- `align_up` from arena.h: `(n + align - 1) & ~(align - 1)` in `size_t`
arithmetic.  For `1 ≤ align ≤ 2^64` the complement `~(align - 1)` is the
64-bit value `2^64 - align`. -/
def align_up (n align : Nat) : Nat :=
  ((n + align - 1) % W64) &&& (W64 - align)

/-- One `Arena_t` record of the chain: `base`, `bump`, `end` are absolute
addresses (the marker fields live only on the root and are kept on the
`Arena` structure below, matching the C where non-root blocks always have
`markers = NULL`). -/
structure Block where
  base : Nat
  bump : Nat
  «end» : Nat
deriving DecidableEq, Repr

/-- Capacity `end - base` of a block (pointer difference). -/
def blockCap (b : Block) : Nat := b.«end» - b.base

/-- The whole allocator state: the chain of blocks (head = root), the
root's marker stack (last element = top of stack), the marker array
capacity, the byte store, and the next fresh address `malloc` will
return for a new block. -/
structure Arena where
  blocks : List Block
  markers : List Nat
  marker_cap : Nat
  mem : Nat → Nat
  fresh : Nat

/-- `get_current_position` from arena.h: full capacities of the blocks
before the tail, plus the tail's `bump - base`. -/
def get_current_position : List Block → Nat
  | [] => 0
  | [b] => b.bump - b.base
  | b :: b' :: bs => blockCap b + get_current_position (b' :: bs)

/-- Total capacity of the chain. -/
def capTotal (bs : List Block) : Nat := (bs.map blockCap).sum

/-- `memset(dst, v, n)` on the byte store. -/
def memset (m : Nat → Nat) (dst v n : Nat) : Nat → Nat :=
  fun a => if dst ≤ a ∧ a < dst + n then v else m a

/-- `memcpy(dst, src, n)` on the byte store (regions assumed disjoint in
the C; this model reads all source bytes from the pre-call store). -/
def memcpy (m : Nat → Nat) (dst src n : Nat) : Nat → Nat :=
  fun a => if dst ≤ a ∧ a < dst + n then m (src + (a - dst)) else m a

/-- Write a list of byte values starting at `dst`. -/
def writeBytes (m : Nat → Nat) (dst : Nat) : List Nat → (Nat → Nat)
  | [] => m
  | v :: vs => writeBytes (fun a => if a = dst then v else m a) (dst + 1) vs

/-- `arena_create` from arena.c (the `malloc`s are assumed to succeed;
the root block is placed at address 0). -/
def arena_create (initial_size : Nat) : Arena :=
  let sz := if initial_size = 0 then ARENA_DEFAULT_SIZE else initial_size
  { blocks := [{ base := 0, bump := 0, «end» := sz }]
    markers := []
    marker_cap := ARENA_INITIAL_MARKER_CAP
    mem := fun _ => 0
    fresh := sz }

/-- Size of the block chained on by `arena_alloc` when the tail cannot
hold `bytes` (already aligned) more: `new_size = prev_size * 2` in
`size_t`, floored at `ARENA_DEFAULT_SIZE` and at `bytes`. -/
def grownSize (prev_size bytes : Nat) : Nat :=
  let ns := (prev_size * 2) % W64
  let ns := if ns < ARENA_DEFAULT_SIZE then ARENA_DEFAULT_SIZE else ns
  if ns < bytes then bytes else ns

/-- The chain part of `arena_alloc` (bytes already aligned): walk to the
last block; bump there if it fits, otherwise chain a new block of
`grownSize` at the fresh address and bump in it.  Returns the new chain,
the returned pointer and the new fresh counter; `none` on an empty chain
(the C would dereference NULL). -/
def allocInChain : List Block → Nat → Nat → Option (List Block × Nat × Nat)
  | [], _, _ => none
  | [b], fr, bytes =>
    if b.bump + bytes > b.«end» then
      let ns := grownSize (blockCap b) bytes
      some ([b, { base := fr, bump := fr + bytes, «end» := fr + ns }], fr, fr + ns)
    else
      some ([{ b with bump := b.bump + bytes }], b.bump, fr)
  | b :: b' :: bs, fr, bytes =>
    match allocInChain (b' :: bs) fr bytes with
    | some (bs', p, fr') => some (b :: bs', p, fr')
    | none => none

/-- `arena_alloc` from arena.c. -/
def arena_alloc (a : Arena) (bytes : Nat) : Option Nat × Arena :=
  if bytes = 0 then (none, a)
  else
    let bytes := align_up bytes ARENA_ALIGNMENT
    match allocInChain a.blocks a.fresh bytes with
    | some (bs', p, fr') => (some p, { a with blocks := bs', fresh := fr' })
    | none => (none, a)

/-- `arena_calloc` from arena.c: `total = num * size` in `size_t`, then
`arena_alloc` and `memset 0` over `total` bytes. -/
def arena_calloc (a : Arena) (num size : Nat) : Option Nat × Arena :=
  let total := (num * size) % W64
  match arena_alloc a total with
  | (some p, a') => (some p, { a' with mem := memset a'.mem p 0 total })
  | (none, a') => (none, a')

/-- The containing-block search of `arena_realloc` (old/new already
aligned): find the first block with `base ≤ p < end`; if `p + old`
equals that block's `bump` and the resize fits (or shrinks), adjust the
bump in place and return the updated chain; otherwise `none` (the C
breaks out and falls through to the copy path). -/
def tryInPlace : List Block → Nat → Nat → Nat → Option (List Block)
  | [], _, _, _ => none
  | b :: bs, p, old, new =>
    if b.base ≤ p ∧ p < b.«end» then
      if p + old = b.bump then
        let extra := if new > old then new - old else 0
        if b.bump + extra ≤ b.«end» then
          some ({ b with bump := p + new } :: bs)
        else if new < old then
          some ({ b with bump := p + new } :: bs)
        else none
      else none
    else
      match tryInPlace bs p old new with
      | some bs' => some (b :: bs')
      | none => none

/-- `arena_realloc` from arena.c. -/
def arena_realloc (a : Arena) (ptr : Option Nat) (old_size new_size : Nat) :
    Option Nat × Arena :=
  if new_size = 0 then (none, a)
  else
    match ptr with
    | none => arena_alloc a new_size
    | some p =>
      let old := align_up old_size ARENA_ALIGNMENT
      let new := align_up new_size ARENA_ALIGNMENT
      match tryInPlace a.blocks p old new with
      | some bs' => (some p, { a with blocks := bs' })
      | none =>
        match arena_alloc a new_size with
        | (some q, a') =>
          let copy := if old < new then old else new
          (some q, { a' with mem := memcpy a'.mem q p copy })
        | (none, a') => (none, a')

/-- `arena_push_marker` from arena.c (the marker-array `realloc` is
assumed to succeed; marker values are stored at the end of the list). -/
def arena_push_marker (a : Arena) : Arena :=
  let cap := if a.markers.length = a.marker_cap then a.marker_cap * 2 else a.marker_cap
  { a with
    marker_cap := cap
    markers := a.markers ++ [get_current_position a.blocks] }

/-- The chain walk of `arena_pop_marker`: accumulate capacities `c`
block by block; on the first block with `g ≤ c + cap`, set its bump to
`base + (g - c)` and drop (free) every later block.  If `g` exceeds the
total capacity the walk falls off the chain and nothing changes. -/
def popWalk : List Block → Nat → Nat → List Block
  | [], _, _ => []
  | b :: bs, g, c =>
    if g ≤ c + blockCap b then
      [{ b with bump := b.base + (g - c) }]
    else
      b :: popWalk bs g (c + blockCap b)

/-- `arena_pop_marker` from arena.c. -/
def arena_pop_marker (a : Arena) : Arena :=
  match a.markers.getLast? with
  | none => a
  | some g => { a with markers := a.markers.dropLast, blocks := popWalk a.blocks g 0 }

/-- `arena_reset` from arena.c: clear the markers, free every non-root
block, reset the root bump to its base. -/
def arena_reset (a : Arena) : Arena :=
  match a.blocks with
  | [] => { a with markers := [] }
  | b :: _ => { a with markers := [], blocks := [{ b with bump := b.base }] }

/-- `arena_strdup` from arena.c: the argument is the byte content of the
string before its terminator (`none` = NULL pointer); `strlen + 1`
bytes are allocated and the content plus the 0 terminator is copied. -/
def arena_strdup (a : Arena) (str : Option (List Nat)) : Option Nat × Arena :=
  match str with
  | none => (none, a)
  | some s =>
    let len := s.length + 1
    match arena_alloc a len with
    | (some p, a') => (some p, { a' with mem := writeBytes a'.mem p (s ++ [0]) })
    | (none, a') => (none, a')

/-- Run a list of `arena_alloc` requests, keeping only the state. -/
def applyAllocs (a : Arena) : List Nat → Arena
  | [] => a
  | n :: ns => applyAllocs (arena_alloc a n).2 ns

/-- Global byte offset of an address `p`: full capacities of the blocks
before the one whose `[base, end)` range contains `p`, plus `p - base`
there; `none` when no block contains `p`.  This is the coordinate space
of `get_current_position` and of the markers. -/
def global_offset : List Block → Nat → Option Nat
  | [], _ => none
  | b :: bs, p =>
    if b.base ≤ p ∧ p < b.«end» then some (p - b.base)
    else (global_offset bs p).map (fun o => blockCap b + o)

/-- Index (relative to the list walked) of the block where the pop walk
for global offset `g` with accumulated capacity `c` stops; returns the
list length when the walk falls off the chain (stale offset). -/
def landIdx : List Nat → Nat → Nat → Nat
  | [], _, _ => 0
  | cap :: caps, g, c =>
    if g ≤ c + cap then 0 else landIdx caps g (c + cap) + 1

/-- In-block offset `g - c` at the block where the pop walk stops. -/
def landOff : List Nat → Nat → Nat → Nat
  | [], g, c => g - c
  | cap :: caps, g, c =>
    if g ≤ c + cap then g - c else landOff caps g (c + cap)

/-- Per-block well-formedness: `base ≤ bump ≤ end` (the documented block
invariant) together with positive capacity. -/
def wfB (b : Block) : Prop := b.base ≤ b.bump ∧ b.bump ≤ b.«end» ∧ b.base < b.«end»

instance (b : Block) : Decidable (wfB b) := by unfold wfB; infer_instance

/-- Chain well-formedness: every block satisfies `wfB`. -/
def wfChain (bs : List Block) : Prop := ∀ b ∈ bs, wfB b

instance (bs : List Block) : Decidable (wfChain bs) := by
  unfold wfChain; infer_instance

/-- Blocks occupy pairwise disjoint, increasing address ranges (what
`malloc` guarantees for the live blocks of the chain). -/
def disjointChain (bs : List Block) : Prop :=
  List.Pairwise (fun b1 b2 => b1.«end» ≤ b2.base) bs

instance (bs : List Block) : Decidable (disjointChain bs) := by
  unfold disjointChain; infer_instance

/-- All block ranges lie below the fresh-address counter. -/
def belowFresh (a : Arena) : Prop := ∀ b ∈ a.blocks, b.«end» ≤ a.fresh

instance (a : Arena) : Decidable (belowFresh a) := by
  unfold belowFresh; infer_instance

/-- States reachable from `arena_create` by the public operations. -/
inductive Reachable : Arena → Prop where
  | create (n : Nat) : Reachable (arena_create n)
  | alloc (a : Arena) (bytes : Nat) : Reachable a → Reachable (arena_alloc a bytes).2
  | calloc (a : Arena) (num size : Nat) : Reachable a → Reachable (arena_calloc a num size).2
  | realloc (a : Arena) (ptr : Option Nat) (old_size new_size : Nat) :
      Reachable a → Reachable (arena_realloc a ptr old_size new_size).2
  | strdup (a : Arena) (s : Option (List Nat)) : Reachable a → Reachable (arena_strdup a s).2
  | push (a : Arena) : Reachable a → Reachable (arena_push_marker a)
  | pop (a : Arena) : Reachable a → Reachable (arena_pop_marker a)
  | reset (a : Arena) : Reachable a → Reachable (arena_reset a)

/-- Grow-only reachability: same public operations, but `arena_realloc`
is only applied when the aligned new size is at least the aligned old
size (no in-place shrink). -/
inductive ReachableG : Arena → Prop where
  | create (n : Nat) : ReachableG (arena_create n)
  | alloc (a : Arena) (bytes : Nat) : ReachableG a → ReachableG (arena_alloc a bytes).2
  | calloc (a : Arena) (num size : Nat) : ReachableG a → ReachableG (arena_calloc a num size).2
  | realloc (a : Arena) (ptr : Option Nat) (old_size new_size : Nat) :
      align_up old_size ARENA_ALIGNMENT ≤ align_up new_size ARENA_ALIGNMENT →
      ReachableG a → ReachableG (arena_realloc a ptr old_size new_size).2
  | strdup (a : Arena) (s : Option (List Nat)) : ReachableG a → ReachableG (arena_strdup a s).2
  | push (a : Arena) : ReachableG a → ReachableG (arena_push_marker a)
  | pop (a : Arena) : ReachableG a → ReachableG (arena_pop_marker a)
  | reset (a : Arena) : ReachableG a → ReachableG (arena_reset a)

/-- Size-bounded reachability: the public operations with `size_t`
arguments that do not overflow the alignment round-up (`realloc` sizes
below `2^64 - 7`); this is the regime the alignment claims are about. -/
inductive ReachableB : Arena → Prop where
  | create (n : Nat) : ReachableB (arena_create n)
  | alloc (a : Arena) (bytes : Nat) : ReachableB a → ReachableB (arena_alloc a bytes).2
  | calloc (a : Arena) (num size : Nat) : ReachableB a → ReachableB (arena_calloc a num size).2
  | realloc (a : Arena) (ptr : Option Nat) (old_size new_size : Nat) :
      new_size + 7 < W64 →
      ReachableB a → ReachableB (arena_realloc a ptr old_size new_size).2
  | strdup (a : Arena) (s : Option (List Nat)) : ReachableB a → ReachableB (arena_strdup a s).2
  | push (a : Arena) : ReachableB a → ReachableB (arena_push_marker a)
  | pop (a : Arena) : ReachableB a → ReachableB (arena_pop_marker a)
  | reset (a : Arena) : ReachableB a → ReachableB (arena_reset a)

/-- The capacity list of a chain. -/
def capsOf (bs : List Block) : List Nat := bs.map blockCap

/-- The tail of a multi-block chain has a strictly positive bump offset. -/
def tailNZ (bs : List Block) : Prop :=
  1 < bs.length → ∀ t, bs.getLast? = some t → t.base < t.bump

instance (bs : List Block) : Decidable (tailNZ bs) := by
  unfold tailNZ; infer_instance

/-- A stored marker is within the chain capacity and the pop walk for it
stops at an 8-aligned in-block offset. -/
def markerFits (bs : List Block) (m : Nat) : Prop :=
  m ≤ capTotal bs ∧ 8 ∣ landOff (capsOf bs) m 0

instance (bs : List Block) (m : Nat) : Decidable (markerFits bs m) := by
  unfold markerFits; infer_instance

/-- From bottom to top of the marker stack, the blocks where the pop
walk stops come in non-decreasing order. -/
def landMono (bs : List Block) (ms : List Nat) : Prop :=
  List.Pairwise (fun x y => landIdx (capsOf bs) x 0 ≤ landIdx (capsOf bs) y 0) ms

instance (bs : List Block) (ms : List Nat) : Decidable (landMono bs ms) := by
  unfold landMono; infer_instance

/-- Every block bump offset is 8-aligned. -/
def alignedChain (bs : List Block) : Prop := ∀ b ∈ bs, 8 ∣ (b.bump - b.base)

instance (bs : List Block) : Decidable (alignedChain bs) := by
  unfold alignedChain; infer_instance

/-- The internal invariant of reachable arenas used for the alignment
and marker-stack claims. -/
def ArenaInv (a : Arena) : Prop :=
  a.blocks ≠ [] ∧ wfChain a.blocks ∧ alignedChain a.blocks ∧ tailNZ a.blocks ∧
  (∀ m ∈ a.markers, markerFits a.blocks m) ∧ landMono a.blocks a.markers

instance (a : Arena) : Decidable (ArenaInv a) := by
  unfold ArenaInv; infer_instance

/-- The invariant behind the marker-stack monotonicity claim: a
non-decreasing marker stack whose entries are all at most the current
global position. -/
def MInvG (a : Arena) : Prop :=
  a.blocks ≠ [] ∧ wfChain a.blocks ∧
  List.Pairwise (fun x y => x ≤ y) a.markers ∧
  ∀ m ∈ a.markers, m ≤ get_current_position a.blocks

instance (a : Arena) : Decidable (MInvG a) := by
  unfold MInvG; infer_instance

theorem arena_create_blocks (n : Nat) :
    (arena_create n).blocks =
      [{ base := 0, bump := 0, «end» := if n = 0 then ARENA_DEFAULT_SIZE else n }] := rfl

/-! ### Arithmetic facts about `align_up` -/

theorem and_mask8 (m : Nat) (h : m < W64) : m &&& (W64 - 8) = 8 * (m / 8) := by
  have hmask : W64 - 8 = (2 ^ 61 - 1) <<< 3 := by
    rw [Nat.shiftLeft_eq]; rfl
  have hdiv : 8 * (m / 8) = (m >>> 3) <<< 3 := by
    rw [Nat.shiftLeft_eq, Nat.shiftRight_eq_div_pow]
    show 8 * (m / 8) = m / 2 ^ 3 * 2 ^ 3
    norm_num [Nat.mul_comm]
  rw [hmask, hdiv]
  apply Nat.eq_of_testBit_eq
  intro i
  rw [Nat.testBit_and, Nat.testBit_shiftLeft, Nat.testBit_shiftLeft,
    Nat.testBit_shiftRight, Nat.testBit_two_pow_sub_one]
  by_cases h3 : 3 ≤ i
  · by_cases h64 : i < 64
    · have : i - 3 < 61 := by omega
      have : 3 + (i - 3) = i := by omega
      simp_all
    · have hb : m.testBit i = false := by
        apply Nat.testBit_lt_two_pow
        calc m < W64 := h
          _ ≤ 2 ^ i := Nat.pow_le_pow_right (by norm_num) (by omega)
      have : ¬ (i - 3 < 61) := by omega
      simp_all
  · have hn : ¬ (3 ≤ i) := by omega
    simp [hn]

theorem align_up_eq (n : Nat) (h : n + 7 < W64) :
    align_up n ARENA_ALIGNMENT = 8 * ((n + 7) / 8) := by
  unfold align_up ARENA_ALIGNMENT
  rw [show n + 8 - 1 = n + 7 by omega, Nat.mod_eq_of_lt h, and_mask8 _ h]

theorem align_up_dvd (n : Nat) : 8 ∣ align_up n ARENA_ALIGNMENT := by
  unfold align_up ARENA_ALIGNMENT
  rw [and_mask8 _ (Nat.mod_lt _ (by unfold W64; norm_num))]
  exact Dvd.intro _ rfl

theorem le_align_up (n : Nat) (h : n + 7 < W64) : n ≤ align_up n ARENA_ALIGNMENT := by
  rw [align_up_eq n h]
  have h1 := Nat.div_add_mod (n + 7) 8
  have h2 := Nat.mod_lt (n + 7) (show 0 < 8 by norm_num)
  omega

theorem align_up_le (n : Nat) (h : n + 7 < W64) : align_up n ARENA_ALIGNMENT ≤ n + 7 := by
  rw [align_up_eq n h]
  have := Nat.div_mul_le_self (n + 7) 8
  omega

theorem align_up_pos (n : Nat) (h0 : 0 < n) (h : n + 7 < W64) :
    8 ≤ align_up n ARENA_ALIGNMENT := by
  have h1 := le_align_up n h
  have h2 := align_up_dvd n
  omega

theorem align_up_mono (m n : Nat) (hmn : m ≤ n) (h : n + 7 < W64) :
    align_up m ARENA_ALIGNMENT ≤ align_up n ARENA_ALIGNMENT := by
  rw [align_up_eq m (by omega), align_up_eq n h]
  have := Nat.div_le_div_right (c := 8) (show m + 7 ≤ n + 7 by omega)
  omega

/-! ### C9: realloc edge cases -/

/-- C9: `arena_realloc` with `new_size = 0` returns no allocation and
leaves the whole arena state unchanged, and `arena_realloc` with an
absent pointer returns the same result and state as `arena_alloc
new_size`. -/
theorem realloc_zero_and_null_spec (a : Arena) (ptr : Option Nat) (old_size new_size : Nat) :
    arena_realloc a ptr old_size 0 = (none, a) ∧
    arena_realloc a none old_size new_size = arena_alloc a new_size := by
  constructor
  · simp [arena_realloc]
  · by_cases h : new_size = 0
    · subst h; simp [arena_realloc, arena_alloc]
    · simp [arena_realloc, h]

/-! ### C6: reset totality -/

/-- C6: after `arena_reset` the marker stack is empty, the chain is just
the root block (same `base` and `end`, hence same capacity) with its
bump back at `base`, and the global position is 0. -/
theorem reset_totality (a : Arena) (b : Block) (rest : List Block)
    (h : a.blocks = b :: rest) :
    (arena_reset a).markers = [] ∧
    (arena_reset a).blocks = [{ b with bump := b.base }] ∧
    get_current_position (arena_reset a).blocks = 0 := by
  simp [arena_reset, h, get_current_position]

/-- Concrete instance of `reset_totality` at `arena_create 64`. -/
theorem reset_totality_w :
    (arena_reset (arena_create 64)).markers = [] ∧
    (arena_reset (arena_create 64)).blocks = [{ base := 0, bump := 0, «end» := 64 }] ∧
    get_current_position (arena_reset (arena_create 64)).blocks = 0 :=
  reset_totality (arena_create 64) { base := 0, bump := 0, «end» := 64 } [] rfl

/-! ### Characterizing `arena_alloc` -/

theorem grownSize_eq (p b : Nat) (hp : 2 * p < W64) :
    grownSize p b = max (max (2 * p) ARENA_DEFAULT_SIZE) b := by
  simp only [grownSize]
  rw [Nat.mul_comm p 2, Nat.mod_eq_of_lt hp]
  split_ifs <;> omega

theorem grownSize_ge (p b : Nat) : b ≤ grownSize p b := by
  simp only [grownSize]
  split_ifs <;> omega

theorem grownSize_pos (p b : Nat) : 0 < grownSize p b := by
  simp only [grownSize, ARENA_DEFAULT_SIZE]
  split_ifs <;> omega

theorem allocInChain_eq (bs : List Block) (t : Block) (fr bytes : Nat)
    (ht : bs.getLast? = some t) :
    allocInChain bs fr bytes =
      if t.«end» < t.bump + bytes then
        some (bs ++ [{ base := fr, bump := fr + bytes,
                       «end» := fr + grownSize (blockCap t) bytes }],
              fr, fr + grownSize (blockCap t) bytes)
      else
        some (bs.dropLast ++ [{ t with bump := t.bump + bytes }], t.bump, fr) := by
  induction bs with
  | nil => simp at ht
  | cons b rest ih =>
    cases rest with
    | nil =>
      simp only [List.getLast?_singleton, Option.some.injEq] at ht
      subst ht
      simp only [allocInChain, List.dropLast_single]
      split_ifs with h
      · rfl
      · rfl
    | cons b' rest' =>
      rw [List.getLast?_cons_cons] at ht
      simp only [allocInChain, ih ht]
      split_ifs with h
      · rfl
      · rfl

theorem arena_alloc_spec (a : Arena) (t : Block) (bytes : Nat)
    (h0 : bytes ≠ 0) (ht : a.blocks.getLast? = some t) :
    arena_alloc a bytes =
      if t.«end» < t.bump + align_up bytes ARENA_ALIGNMENT then
        (some a.fresh,
         { a with
             blocks := a.blocks ++
               [⟨a.fresh, a.fresh + align_up bytes ARENA_ALIGNMENT,
                 a.fresh + grownSize (blockCap t) (align_up bytes ARENA_ALIGNMENT)⟩],
             fresh := a.fresh + grownSize (blockCap t) (align_up bytes ARENA_ALIGNMENT) })
      else
        (some t.bump,
         { a with blocks :=
             a.blocks.dropLast ++ [{ t with bump := t.bump + align_up bytes ARENA_ALIGNMENT }] }) := by
  simp only [arena_alloc, if_neg h0]
  rw [allocInChain_eq a.blocks t a.fresh _ ht]
  split_ifs with h
  · rfl
  · rfl

/-! ### C3: growth sizing -/

/-- C3: when a positive request does not fit in the tail block,
`arena_alloc` appends a block of capacity exactly
`max (max (2 * previous tail capacity) ARENA_DEFAULT_SIZE) (aligned bytes)`,
and when the request exceeds twice the tail capacity the appended
capacity is at least the request. -/
theorem growth_sizing (a : Arena) (t : Block) (bytes : Nat)
    (ht : a.blocks.getLast? = some t)
    (h0 : 0 < bytes) (hbw : bytes + 7 < W64)
    (hprev : 2 * blockCap t < W64)
    (hfit : t.«end» < t.bump + align_up bytes ARENA_ALIGNMENT) :
    (arena_alloc a bytes).2.blocks.map blockCap
      = a.blocks.map blockCap ++
        [max (max (2 * blockCap t) ARENA_DEFAULT_SIZE) (align_up bytes ARENA_ALIGNMENT)] ∧
    (2 * blockCap t < bytes →
      bytes ≤ max (max (2 * blockCap t) ARENA_DEFAULT_SIZE) (align_up bytes ARENA_ALIGNMENT)) := by
  rw [arena_alloc_spec a t bytes (by omega) ht, if_pos hfit]
  constructor
  · simp only [List.map_append, List.map_cons, List.map_nil, List.append_cancel_left_eq,
      List.cons.injEq, and_true]
    show blockCap _ = _
    rw [grownSize_eq _ _ hprev]
    simp only [blockCap]
    omega
  · intro _
    have := le_align_up bytes hbw
    omega

/-- Concrete instance of `growth_sizing`: `create 64` then `alloc 200`
appends a block of capacity `max (max 128 1048576) 200 = 1048576 ≥ 200`. -/
theorem growth_sizing_w :
    (arena_alloc (arena_create 64) 200).2.blocks.map blockCap
      = (arena_create 64).blocks.map blockCap ++
        [max (max (2 * blockCap { base := 0, bump := 0, «end» := 64 }) ARENA_DEFAULT_SIZE)
          (align_up 200 ARENA_ALIGNMENT)] ∧
    (200 : Nat) ≤ max (max (2 * blockCap { base := 0, bump := 0, «end» := 64 }) ARENA_DEFAULT_SIZE)
        (align_up 200 ARENA_ALIGNMENT) := by
  have h := growth_sizing (arena_create 64) { base := 0, bump := 0, «end» := 64 } 200
    rfl (by norm_num) (by unfold W64; norm_num)
    (by unfold blockCap W64; norm_num)
    (by rw [align_up_eq 200 (by unfold W64; norm_num)]; norm_num)
  exact ⟨h.1, h.2 (by unfold blockCap; norm_num)⟩

/-! ### C10: tail-only allocation -/

/-- C10: every successful `arena_alloc` carves its region from the last
block of the (possibly extended) chain: the returned pointer `p` lies in
the final tail `t`, the new tail bump is exactly `p + aligned bytes`
and stays within the block, and the chain is either the old chain with
only its last block bumped, or the old chain with one appended block —
so the free space of non-tail blocks is never touched. -/
theorem alloc_tail_only (a : Arena) (bytes p : Nat) (a' : Arena)
    (hwf : wfChain a.blocks)
    (h : arena_alloc a bytes = (some p, a')) :
    ∀ t, a'.blocks.getLast? = some t →
      t.base ≤ p ∧ p + align_up bytes ARENA_ALIGNMENT = t.bump ∧ t.bump ≤ t.«end» ∧
      (a'.blocks = a.blocks.dropLast ++ [t] ∨ a'.blocks = a.blocks ++ [t]) := by
  by_cases h0 : bytes = 0
  · rw [h0] at h
    simp [arena_alloc] at h
  rcases hbs : a.blocks.getLast? with _ | t0
  · rw [List.getLast?_eq_none_iff] at hbs
    rw [arena_alloc, if_neg h0] at h
    simp only [hbs, allocInChain] at h
    simp at h
  have hmem : t0 ∈ a.blocks := List.mem_of_mem_getLast? hbs
  have hwf0 := hwf t0 hmem
  rw [arena_alloc_spec a t0 bytes h0 hbs] at h
  split_ifs at h with hcase
  · -- a new block was chained on
    rw [Prod.mk.injEq] at h
    obtain ⟨hp, ha'⟩ := h
    cases hp
    intro t ht
    rw [← ha'] at ht
    simp only [List.getLast?_concat, Option.some.injEq] at ht
    subst ht
    refine ⟨Nat.le_refl _, rfl, ?_, Or.inr (by rw [← ha'])⟩
    exact Nat.add_le_add_left (grownSize_ge _ _) _
  · -- the request fits in the old tail
    rw [Prod.mk.injEq] at h
    obtain ⟨hp, ha'⟩ := h
    cases hp
    intro t ht
    rw [← ha'] at ht
    simp only [List.getLast?_concat, Option.some.injEq] at ht
    subst ht
    refine ⟨hwf0.1, rfl, Nat.le_of_not_lt hcase, Or.inl (by rw [← ha'])⟩

/-- Concrete instance of `alloc_tail_only` at `arena_create 64`,
`bytes = 16`: the region `[0, 16)` is carved from the tail block. -/
theorem alloc_tail_only_w :
    (0 : Nat) ≤ 0 ∧
    0 + align_up 16 ARENA_ALIGNMENT = (16 : Nat) ∧ (16 : Nat) ≤ 64 ∧
    ((arena_alloc (arena_create 64) 16).2.blocks
        = (arena_create 64).blocks.dropLast ++ [⟨0, 16, 64⟩] ∨
      (arena_alloc (arena_create 64) 16).2.blocks
        = (arena_create 64).blocks ++ [⟨0, 16, 64⟩]) := by
  have h := alloc_tail_only (arena_create 64) 16 0 (arena_alloc (arena_create 64) 16).2
    (by decide) rfl ⟨0, 16, 64⟩ rfl
  exact h

/-! ### Preservation of the block invariant `base ≤ bump ≤ end` -/

theorem wfChain_create (n : Nat) : wfChain (arena_create n).blocks := by
  intro b hb
  simp only [arena_create, List.mem_singleton] at hb
  subst hb
  unfold wfB ARENA_DEFAULT_SIZE
  split_ifs with h
  · simp
  · simp
    omega

theorem arena_alloc_zero (a : Arena) : arena_alloc a 0 = (none, a) := by
  simp [arena_alloc]

theorem arena_alloc_of_blocks_nil (a : Arena) (bytes : Nat) (h : a.blocks = []) :
    arena_alloc a bytes = (none, a) := by
  unfold arena_alloc
  split_ifs with h0
  · rfl
  · simp only [h, allocInChain]

theorem wfChain_alloc (a : Arena) (bytes : Nat) (h : wfChain a.blocks) :
    wfChain (arena_alloc a bytes).2.blocks := by
  by_cases h0 : bytes = 0
  · rw [h0, arena_alloc_zero]; exact h
  rcases hbs : a.blocks.getLast? with _ | t0
  · rw [List.getLast?_eq_none_iff] at hbs
    rw [arena_alloc_of_blocks_nil a bytes hbs]
    exact h
  have hwf0 := h t0 (List.mem_of_mem_getLast? hbs)
  rw [arena_alloc_spec a t0 bytes h0 hbs]
  split_ifs with hcase
  · intro b hb
    simp only [List.mem_append, List.mem_singleton] at hb
    rcases hb with hb | hb
    · exact h b hb
    · subst hb
      have h1 := grownSize_ge (blockCap t0) (align_up bytes ARENA_ALIGNMENT)
      have h2 := grownSize_pos (blockCap t0) (align_up bytes ARENA_ALIGNMENT)
      unfold wfB
      simp only
      omega
  · intro b hb
    simp only [List.mem_append, List.mem_singleton] at hb
    rcases hb with hb | hb
    · exact h b (List.dropLast_subset _ hb)
    · subst hb
      unfold wfB at hwf0 ⊢
      simp only
      omega

theorem wfChain_popWalk (bs : List Block) (g c : Nat) (h : wfChain bs) :
    wfChain (popWalk bs g c) := by
  induction bs generalizing c with
  | nil => exact h
  | cons b rest ih =>
    have hwfb := h b (List.mem_cons_self b rest)
    have hrest : wfChain rest := fun x hx => h x (List.mem_cons_of_mem _ hx)
    unfold popWalk
    split_ifs with hc
    · intro x hx
      simp only [List.mem_singleton] at hx
      subst hx
      unfold blockCap at hc
      unfold wfB at hwfb ⊢
      simp only
      omega
    · intro x hx
      rcases List.mem_cons.mp hx with hx | hx
      · subst hx; exact hwfb
      · exact ih (c + blockCap b) hrest x hx

theorem wfChain_pop (a : Arena) (h : wfChain a.blocks) :
    wfChain (arena_pop_marker a).blocks := by
  unfold arena_pop_marker
  rcases hm : a.markers.getLast? with _ | g
  · exact h
  · exact wfChain_popWalk a.blocks g 0 h

theorem wfChain_tryInPlace (bs : List Block) (p old new : Nat) (bs' : List Block)
    (h : wfChain bs) (ht : tryInPlace bs p old new = some bs') : wfChain bs' := by
  induction bs generalizing bs' with
  | nil => simp [tryInPlace] at ht
  | cons b rest ih =>
    have hwfb := h b (List.mem_cons_self b rest)
    have hrest : wfChain rest := fun x hx => h x (List.mem_cons_of_mem _ hx)
    simp only [tryInPlace] at ht
    by_cases h1 : b.base ≤ p ∧ p < b.«end»
    · rw [if_pos h1] at ht
      split_ifs at ht <;>
      first
        | exact Option.noConfusion ht
        | (rw [Option.some.injEq] at ht
           subst ht
           intro x hx
           rcases List.mem_cons.mp hx with hx | hx
           · subst hx
             unfold wfB at hwfb ⊢
             simp only
             omega
           · exact hrest x hx)
    · rw [if_neg h1] at ht
      rcases hrec : tryInPlace rest p old new with _ | bs''
      · rw [hrec] at ht; simp at ht
      · rw [hrec] at ht
        simp only [Option.some.injEq] at ht
        subst ht
        intro x hx
        rcases List.mem_cons.mp hx with hx | hx
        · subst hx; exact hwfb
        · exact ih bs'' hrest hrec x hx

theorem wfChain_realloc (a : Arena) (ptr : Option Nat) (old_size new_size : Nat)
    (h : wfChain a.blocks) : wfChain (arena_realloc a ptr old_size new_size).2.blocks := by
  unfold arena_realloc
  split_ifs with h0
  · exact h
  cases ptr with
  | none => exact wfChain_alloc a new_size h
  | some p =>
    simp only
    rcases htp : tryInPlace a.blocks p (align_up old_size ARENA_ALIGNMENT)
        (align_up new_size ARENA_ALIGNMENT) with _ | bs'
    · rcases halloc : arena_alloc a new_size with ⟨r, a'⟩
      have hwf' : wfChain a'.blocks := by
        have := wfChain_alloc a new_size h
        rw [halloc] at this
        exact this
      cases r with
      | none => exact hwf'
      | some q => exact hwf'
    · exact wfChain_tryInPlace a.blocks p _ _ bs' h htp

theorem calloc_blocks (a : Arena) (num size : Nat) :
    (arena_calloc a num size).2.blocks = (arena_alloc a ((num * size) % W64)).2.blocks := by
  simp only [arena_calloc]
  rcases halloc : arena_alloc a (num * size % W64) with ⟨r, a'⟩
  cases r <;> rfl

theorem strdup_blocks (a : Arena) (s : List Nat) :
    (arena_strdup a (some s)).2.blocks = (arena_alloc a (s.length + 1)).2.blocks := by
  simp only [arena_strdup]
  rcases halloc : arena_alloc a (s.length + 1) with ⟨r, a'⟩
  cases r <;> rfl

theorem arena_reset_blocks (a : Arena) (b : Block) (rest : List Block)
    (h : a.blocks = b :: rest) :
    (arena_reset a).blocks = [{ b with bump := b.base }] := by
  unfold arena_reset
  rw [h]

theorem arena_reset_blocks_nil (a : Arena) (h : a.blocks = []) :
    (arena_reset a).blocks = [] := by
  unfold arena_reset
  rw [h]

theorem wfChain_reset (a : Arena) (h : wfChain a.blocks) :
    wfChain (arena_reset a).blocks := by
  rcases hbs : a.blocks with _ | ⟨b, rest⟩
  · rw [arena_reset_blocks_nil a hbs]
    intro x hx
    simp at hx
  · rw [arena_reset_blocks a b rest hbs]
    have hwfb := h b (by rw [hbs]; exact List.mem_cons_self b rest)
    intro x hx
    simp only [List.mem_singleton] at hx
    subst hx
    unfold wfB at hwfb ⊢
    simp only
    omega

theorem wfChain_push (a : Arena) (h : wfChain a.blocks) :
    wfChain (arena_push_marker a).blocks := h

/-! ### Reachable states and C7: the block invariant -/

theorem wfChain_reachable (a : Arena) (h : Reachable a) : wfChain a.blocks := by
  induction h with
  | create n => exact wfChain_create n
  | alloc a bytes _ ih => exact wfChain_alloc a bytes ih
  | calloc a num size _ ih =>
    rw [calloc_blocks]
    exact wfChain_alloc a _ ih
  | realloc a ptr old_size new_size _ ih => exact wfChain_realloc a ptr old_size new_size ih
  | strdup a s _ ih =>
    cases s with
    | none => exact ih
    | some s =>
      rw [strdup_blocks]
      exact wfChain_alloc a _ ih
  | push a _ ih => exact wfChain_push a ih
  | pop a _ ih => exact wfChain_pop a ih
  | reset a _ ih => exact wfChain_reset a ih

/-- C7: in every state reachable from `arena_create` by the public
operations, every block of the chain satisfies `base ≤ bump ≤ end`
(the pop-marker bump retraction and both in-place realloc paths
included, since they are `Reachable` steps). -/
theorem block_bump_invariant (a : Arena) (h : Reachable a) :
    ∀ b ∈ a.blocks, b.base ≤ b.bump ∧ b.bump ≤ b.«end» :=
  fun b hb => ⟨(wfChain_reachable a h b hb).1, (wfChain_reachable a h b hb).2.1⟩

/-- Concrete instance of `block_bump_invariant` after create, alloc,
push, realloc-shrink and pop. -/
theorem block_bump_invariant_w :
    (0 : Nat) ≤ 8 ∧ (8 : Nat) ≤ 1024 := by
  have hre : Reachable (arena_realloc (arena_push_marker
      (arena_alloc (arena_create 1024) 16).2) (some 0) 16 8).2 :=
    Reachable.realloc _ (some 0) 16 8 (Reachable.push _
      (Reachable.alloc (arena_create 1024) 16 (Reachable.create 1024)))
  have h := block_bump_invariant _ hre ⟨0, 8, 1024⟩ (by decide)
  exact h

/-! ### C8: stale-marker pop tolerance -/

theorem capTotal_cons (b : Block) (bs : List Block) :
    capTotal (b :: bs) = blockCap b + capTotal bs := by
  simp [capTotal]

theorem popWalk_stale (bs : List Block) (g c : Nat) (h : c + capTotal bs < g) :
    popWalk bs g c = bs := by
  induction bs generalizing c with
  | nil => rfl
  | cons b rest ih =>
    rw [capTotal_cons] at h
    unfold popWalk
    rw [if_neg (by omega)]
    rw [ih (c + blockCap b) (by omega)]

/-- C8: popping any recorded offset is safe: after `arena_pop_marker`
every block still satisfies `base ≤ bump ≤ end`, exactly the top marker
entry is removed, and when the popped offset exceeds the total chain
capacity (a stale marker) the chain — every base, bump, end and the
links — is left completely unchanged. -/
theorem pop_marker_stale_safe (a : Arena) (g : Nat)
    (hwf : wfChain a.blocks)
    (hm : a.markers.getLast? = some g) :
    (∀ b ∈ (arena_pop_marker a).blocks, b.base ≤ b.bump ∧ b.bump ≤ b.«end») ∧
    (arena_pop_marker a).markers = a.markers.dropLast ∧
    (capTotal a.blocks < g → (arena_pop_marker a).blocks = a.blocks) := by
  unfold arena_pop_marker
  rw [hm]
  refine ⟨?_, rfl, ?_⟩
  · intro b hb
    have h := wfChain_popWalk a.blocks g 0 hwf b hb
    exact ⟨h.1, h.2.1⟩
  · intro hstale
    exact popWalk_stale a.blocks g 0 (by omega)

/-- Concrete instance of `pop_marker_stale_safe` on a one-block chain of
capacity 64 holding the stale marker 100: the pop only removes the
marker. -/
theorem pop_marker_stale_safe_w :
    ((0 : Nat) ≤ 8 ∧ (8 : Nat) ≤ 64) ∧
    (arena_pop_marker (Arena.mk [⟨0, 8, 64⟩] [100] 16 (fun _ => 0) 64)).markers
      = ([100] : List Nat).dropLast ∧
    (arena_pop_marker (Arena.mk [⟨0, 8, 64⟩] [100] 16 (fun _ => 0) 64)).blocks
      = [⟨0, 8, 64⟩] := by
  have h := pop_marker_stale_safe (Arena.mk [⟨0, 8, 64⟩] [100] 16 (fun _ => 0) 64) 100
    (by decide) rfl
  refine ⟨?_, h.2.1, h.2.2 (by decide)⟩
  have hb := h.1 ⟨0, 8, 64⟩ (by decide)
  exact hb

/-! ### State lemmas for alloc, push, pop used by the rewind claims -/

theorem capTotal_append (l1 l2 : List Block) :
    capTotal (l1 ++ l2) = capTotal l1 + capTotal l2 := by
  simp [capTotal]

theorem blockCap_set_bump (b : Block) (x : Nat) :
    blockCap { b with bump := x } = blockCap b := rfl

theorem alloc_markers (a : Arena) (bytes : Nat) :
    (arena_alloc a bytes).2.markers = a.markers := by
  simp only [arena_alloc]
  split_ifs with h0
  · rfl
  · rcases h : allocInChain a.blocks a.fresh (align_up bytes ARENA_ALIGNMENT)
      with _ | ⟨bs', p, fr'⟩ <;> rfl

theorem applyAllocs_markers (a : Arena) (L : List Nat) :
    (applyAllocs a L).markers = a.markers := by
  induction L generalizing a with
  | nil => rfl
  | cons n ns ih => rw [applyAllocs, ih, alloc_markers]

theorem capTotal_alloc_mono (a : Arena) (bytes : Nat) :
    capTotal a.blocks ≤ capTotal (arena_alloc a bytes).2.blocks := by
  by_cases h0 : bytes = 0
  · rw [h0, arena_alloc_zero]
  rcases hbs : a.blocks.getLast? with _ | t
  · rw [List.getLast?_eq_none_iff] at hbs
    rw [arena_alloc_of_blocks_nil a bytes hbs]
  have hdec := List.dropLast_append_getLast? t hbs
  rw [arena_alloc_spec a t bytes h0 hbs]
  split_ifs with hcase
  · simp only
    rw [capTotal_append]
    omega
  · simp only
    conv_lhs => rw [← hdec]
    rw [capTotal_append, capTotal_append]
    simp [capTotal, blockCap_set_bump]

theorem capTotal_applyAllocs_mono (a : Arena) (L : List Nat) :
    capTotal a.blocks ≤ capTotal (applyAllocs a L).blocks := by
  induction L generalizing a with
  | nil => exact Nat.le_refl _
  | cons n ns ih =>
    rw [applyAllocs]
    exact le_trans (capTotal_alloc_mono a n) (ih (arena_alloc a n).2)

theorem wfChain_applyAllocs (a : Arena) (L : List Nat) (h : wfChain a.blocks) :
    wfChain (applyAllocs a L).blocks := by
  induction L generalizing a with
  | nil => exact h
  | cons n ns ih => exact ih (arena_alloc a n).2 (wfChain_alloc a n h)

theorem alloc_blocks_ne_nil (a : Arena) (bytes : Nat) (h : a.blocks ≠ []) :
    (arena_alloc a bytes).2.blocks ≠ [] := by
  by_cases h0 : bytes = 0
  · rw [h0, arena_alloc_zero]; exact h
  rcases hbs : a.blocks.getLast? with _ | t
  · rw [List.getLast?_eq_none_iff] at hbs; exact absurd hbs h
  rw [arena_alloc_spec a t bytes h0 hbs]
  split_ifs with hcase <;> simp

theorem applyAllocs_blocks_ne_nil (a : Arena) (L : List Nat) (h : a.blocks ≠ []) :
    (applyAllocs a L).blocks ≠ [] := by
  induction L generalizing a with
  | nil => exact h
  | cons n ns ih => exact ih (arena_alloc a n).2 (alloc_blocks_ne_nil a n h)

theorem getpos_le_capTotal (bs : List Block) (h : wfChain bs) :
    get_current_position bs ≤ capTotal bs := by
  induction bs with
  | nil => simp [get_current_position, capTotal]
  | cons b rest ih =>
    cases rest with
    | nil =>
      have hb := h b (List.mem_cons_self b [])
      unfold wfB at hb
      simp [get_current_position, capTotal, blockCap]
      omega
    | cons b' rest' =>
      have hrest : wfChain (b' :: rest') := fun x hx => h x (List.mem_cons_of_mem _ hx)
      show blockCap b + get_current_position (b' :: rest') ≤ _
      rw [capTotal_cons]
      have := ih hrest
      omega

theorem getpos_cons_ne_nil (b : Block) (l : List Block) (h : l ≠ []) :
    get_current_position (b :: l) = blockCap b + get_current_position l := by
  cases l with
  | nil => exact absurd rfl h
  | cons x xs => rfl

theorem popWalk_ne_nil (bs : List Block) (g c : Nat) (h : bs ≠ []) :
    popWalk bs g c ≠ [] := by
  cases bs with
  | nil => exact absurd rfl h
  | cons b rest =>
    unfold popWalk
    split_ifs <;> simp

theorem popWalk_pos (bs : List Block) (g c : Nat) (hwf : wfChain bs)
    (hne : bs ≠ []) (hcg : c ≤ g) (hub : g ≤ c + capTotal bs) :
    get_current_position (popWalk bs g c) = g - c := by
  induction bs generalizing c with
  | nil => exact absurd rfl hne
  | cons b rest ih =>
    have hrest : wfChain rest := fun x hx => hwf x (List.mem_cons_of_mem _ hx)
    rw [capTotal_cons] at hub
    unfold popWalk
    split_ifs with hc
    · have hg : get_current_position [{ b with bump := b.base + (g - c) }]
          = (b.base + (g - c)) - b.base := rfl
      rw [hg]
      omega
    · have hrest_ne : rest ≠ [] := by
        intro hr
        subst hr
        simp [capTotal] at hub
        unfold blockCap at hc hub
        omega
      rw [getpos_cons_ne_nil _ _ (popWalk_ne_nil rest g (c + blockCap b) hrest_ne)]
      rw [ih (c + blockCap b) hrest hrest_ne (by omega) (by omega)]
      omega

/-! ### Disjointness and freshness are preserved -/

theorem disjoint_belowFresh_alloc (a : Arena) (bytes : Nat)
    (hdj : disjointChain a.blocks) (hbf : belowFresh a) :
    disjointChain (arena_alloc a bytes).2.blocks ∧ belowFresh (arena_alloc a bytes).2 := by
  by_cases h0 : bytes = 0
  · rw [h0, arena_alloc_zero]; exact ⟨hdj, hbf⟩
  rcases hbs : a.blocks.getLast? with _ | t
  · rw [List.getLast?_eq_none_iff] at hbs
    rw [arena_alloc_of_blocks_nil a bytes hbs]; exact ⟨hdj, hbf⟩
  have hdec := List.dropLast_append_getLast? t hbs
  rw [arena_alloc_spec a t bytes h0 hbs]
  split_ifs with hcase
  · constructor
    · unfold disjointChain at hdj ⊢
      simp only
      rw [List.pairwise_append]
      refine ⟨hdj, List.pairwise_singleton _ _, ?_⟩
      intro x hx y hy
      simp only [List.mem_singleton] at hy
      subst hy
      exact hbf x hx
    · intro x hx
      simp only [List.mem_append, List.mem_singleton] at hx
      rcases hx with hx | hx
      · have := hbf x hx
        simp only
        omega
      · subst hx
        exact Nat.le_refl _
  · constructor
    · unfold disjointChain at hdj ⊢
      simp only
      conv at hdj => rw [← hdec]
      rw [List.pairwise_append] at hdj ⊢
      refine ⟨hdj.1, List.pairwise_singleton _ _, ?_⟩
      intro x hx y hy
      simp only [List.mem_singleton] at hy
      subst hy
      exact hdj.2.2 x hx t (List.mem_singleton.mpr rfl)
    · intro x hx
      simp only [List.mem_append, List.mem_singleton] at hx
      rcases hx with hx | hx
      · exact hbf x (by rw [← hdec]; exact List.mem_append_left _ hx)
      · subst hx
        show t.«end» ≤ a.fresh
        exact hbf t (List.mem_of_mem_getLast? hbs)

theorem disjoint_belowFresh_applyAllocs (a : Arena) (L : List Nat)
    (hdj : disjointChain a.blocks) (hbf : belowFresh a) :
    disjointChain (applyAllocs a L).blocks ∧ belowFresh (applyAllocs a L) := by
  induction L generalizing a with
  | nil => exact ⟨hdj, hbf⟩
  | cons n ns ih =>
    have h := disjoint_belowFresh_alloc a n hdj hbf
    exact ih (arena_alloc a n).2 h.1 h.2

theorem popWalk_mem (bs : List Block) (g c : Nat) (x : Block) (hx : x ∈ popWalk bs g c) :
    ∃ y ∈ bs, x.base = y.base ∧ x.«end» = y.«end» := by
  induction bs generalizing c with
  | nil => simp [popWalk] at hx
  | cons b rest ih =>
    unfold popWalk at hx
    split_ifs at hx with hc
    · simp only [List.mem_singleton] at hx
      subst hx
      exact ⟨b, List.mem_cons_self b rest, rfl, rfl⟩
    · rcases List.mem_cons.mp hx with hx | hx
      · subst hx; exact ⟨x, List.mem_cons_self x rest, rfl, rfl⟩
      · obtain ⟨y, hy, h1, h2⟩ := ih (c + blockCap b) hx
        exact ⟨y, List.mem_cons_of_mem _ hy, h1, h2⟩

theorem disjoint_popWalk (bs : List Block) (g c : Nat) (hdj : disjointChain bs) :
    disjointChain (popWalk bs g c) := by
  induction bs generalizing c with
  | nil => exact hdj
  | cons b rest ih =>
    unfold disjointChain at hdj
    rw [List.pairwise_cons] at hdj
    unfold popWalk
    split_ifs with hc
    · exact List.pairwise_singleton _ _
    · unfold disjointChain
      rw [List.pairwise_cons]
      refine ⟨?_, ih (c + blockCap b) hdj.2⟩
      intro x hx
      obtain ⟨y, hy, h1, h2⟩ := popWalk_mem rest g (c + blockCap b) x hx
      rw [h1]
      exact hdj.1 y hy

theorem disjoint_belowFresh_pop (a : Arena)
    (hdj : disjointChain a.blocks) (hbf : belowFresh a) :
    disjointChain (arena_pop_marker a).blocks ∧ belowFresh (arena_pop_marker a) := by
  unfold arena_pop_marker
  rcases hm : a.markers.getLast? with _ | g
  · exact ⟨hdj, hbf⟩
  · constructor
    · exact disjoint_popWalk a.blocks g 0 hdj
    · intro x hx
      obtain ⟨y, hy, h1, h2⟩ := popWalk_mem a.blocks g 0 x hx
      show x.«end» ≤ a.fresh
      rw [h2]
      exact hbf y hy

/-! ### Position and global offset of the tail -/

theorem getpos_eq (bs : List Block) (t : Block) (ht : bs.getLast? = some t) :
    get_current_position bs = capTotal bs.dropLast + (t.bump - t.base) := by
  induction bs with
  | nil => simp at ht
  | cons b rest ih =>
    cases rest with
    | nil =>
      simp only [List.getLast?_singleton, Option.some.injEq] at ht
      subst ht
      simp [get_current_position, capTotal]
    | cons b' rest' =>
      rw [List.getLast?_cons_cons] at ht
      show blockCap b + get_current_position (b' :: rest') = _
      rw [ih ht]
      have hdl : (b :: b' :: rest').dropLast = b :: (b' :: rest').dropLast := rfl
      rw [hdl, capTotal_cons]
      omega

theorem global_offset_tail (bs : List Block) (t : Block) (p : Nat)
    (ht : bs.getLast? = some t) (hdj : disjointChain bs)
    (hp1 : t.base ≤ p) (hp2 : p < t.«end») :
    global_offset bs p = some (capTotal bs.dropLast + (p - t.base)) := by
  induction bs with
  | nil => simp at ht
  | cons b rest ih =>
    cases rest with
    | nil =>
      simp only [List.getLast?_singleton, Option.some.injEq] at ht
      subst ht
      unfold global_offset
      rw [if_pos ⟨hp1, hp2⟩]
      simp [capTotal]
    | cons b' rest' =>
      rw [List.getLast?_cons_cons] at ht
      unfold disjointChain at hdj
      rw [List.pairwise_cons] at hdj
      have htm : t ∈ b' :: rest' := List.mem_of_mem_getLast? ht
      have hbt : b.«end» ≤ t.base := hdj.1 t htm
      unfold global_offset
      rw [if_neg (by omega)]
      rw [ih ht hdj.2]
      have hdl : (b :: b' :: rest').dropLast = b :: (b' :: rest').dropLast := rfl
      rw [hdl, capTotal_cons]
      simp only [Option.map_some']
      rw [Option.some.injEq]
      omega

/-! ### C1: rewind exactness -/

theorem push_blocks (a : Arena) : (arena_push_marker a).blocks = a.blocks := rfl

theorem push_markers (a : Arena) :
    (arena_push_marker a).markers = a.markers ++ [get_current_position a.blocks] := rfl

/-- C1 (amended): for any allocation sequence `A1; push; A2; pop` the
global position after the pop equals the global position right after the
push (the position before `A2`'s first allocation), and — provided the
next aligned request fits in the tail block — the next allocation
returns a region whose global byte offset is exactly that position.  An
oversized next request instead opens a fresh block at a higher offset
(see the counterexample `rewind_exactness_cx`). -/
theorem rewind_exactness (a : Arena) (A1 A2 : List Nat)
    (hwf : wfChain a.blocks) (hne : a.blocks ≠ [])
    (hdj : disjointChain a.blocks) (hbf : belowFresh a) :
    get_current_position
        (arena_pop_marker (applyAllocs (arena_push_marker (applyAllocs a A1)) A2)).blocks
      = get_current_position (arena_push_marker (applyAllocs a A1)).blocks ∧
    (∀ bytes t,
      0 < bytes → bytes + 7 < W64 →
      (arena_pop_marker (applyAllocs (arena_push_marker (applyAllocs a A1)) A2)).blocks.getLast?
        = some t →
      t.bump + align_up bytes ARENA_ALIGNMENT ≤ t.«end» →
      (arena_alloc (arena_pop_marker (applyAllocs (arena_push_marker (applyAllocs a A1)) A2))
          bytes).1 = some t.bump ∧
      global_offset
          (arena_pop_marker (applyAllocs (arena_push_marker (applyAllocs a A1)) A2)).blocks
          t.bump
        = some (get_current_position
            (arena_pop_marker (applyAllocs (arena_push_marker (applyAllocs a A1)) A2)).blocks)) := by
  have hwf1 : wfChain (applyAllocs a A1).blocks := wfChain_applyAllocs a A1 hwf
  have hne1 : (applyAllocs a A1).blocks ≠ [] := applyAllocs_blocks_ne_nil a A1 hne
  have hdjbf1 := disjoint_belowFresh_applyAllocs a A1 hdj hbf
  have hwf2 : wfChain (arena_push_marker (applyAllocs a A1)).blocks := hwf1
  have hne2 : (arena_push_marker (applyAllocs a A1)).blocks ≠ [] := hne1
  have hwf3 : wfChain (applyAllocs (arena_push_marker (applyAllocs a A1)) A2).blocks :=
    wfChain_applyAllocs _ A2 hwf2
  have hne3 : (applyAllocs (arena_push_marker (applyAllocs a A1)) A2).blocks ≠ [] :=
    applyAllocs_blocks_ne_nil _ A2 hne2
  have hdjbf3 := disjoint_belowFresh_applyAllocs (arena_push_marker (applyAllocs a A1)) A2
    hdjbf1.1 hdjbf1.2
  have hmark : (applyAllocs (arena_push_marker (applyAllocs a A1)) A2).markers
      = (applyAllocs a A1).markers ++ [get_current_position (applyAllocs a A1).blocks] := by
    rw [applyAllocs_markers, push_markers]
  have hlast : (applyAllocs (arena_push_marker (applyAllocs a A1)) A2).markers.getLast?
      = some (get_current_position (applyAllocs a A1).blocks) := by
    rw [hmark, List.getLast?_concat]
  have hcap : get_current_position (applyAllocs a A1).blocks
      ≤ capTotal (applyAllocs (arena_push_marker (applyAllocs a A1)) A2).blocks := by
    have h1 := getpos_le_capTotal (applyAllocs a A1).blocks hwf1
    have h2 := capTotal_applyAllocs_mono (arena_push_marker (applyAllocs a A1)) A2
    rw [push_blocks] at h2
    omega
  have hpop : (arena_pop_marker (applyAllocs (arena_push_marker (applyAllocs a A1)) A2)).blocks
      = popWalk (applyAllocs (arena_push_marker (applyAllocs a A1)) A2).blocks
          (get_current_position (applyAllocs a A1).blocks) 0 := by
    unfold arena_pop_marker
    rw [hlast]
  have hpos4 : get_current_position
      (arena_pop_marker (applyAllocs (arena_push_marker (applyAllocs a A1)) A2)).blocks
      = get_current_position (applyAllocs a A1).blocks := by
    rw [hpop]
    have := popWalk_pos (applyAllocs (arena_push_marker (applyAllocs a A1)) A2).blocks
      (get_current_position (applyAllocs a A1).blocks) 0 hwf3 hne3 (Nat.zero_le _)
      (by omega)
    rw [this]
    omega
  constructor
  · rw [hpos4, push_blocks]
  · intro bytes t hb hbw ht hfit
    have hwf4 : wfChain
        (arena_pop_marker (applyAllocs (arena_push_marker (applyAllocs a A1)) A2)).blocks :=
      wfChain_pop _ hwf3
    have hdjbf4 := disjoint_belowFresh_pop _ hdjbf3.1 hdjbf3.2
    have htwf := hwf4 t (List.mem_of_mem_getLast? ht)
    have halign := align_up_pos bytes hb hbw
    constructor
    · rw [arena_alloc_spec _ t bytes (by omega) ht]
      rw [if_neg (by omega)]
    · rw [global_offset_tail _ t t.bump ht hdjbf4.1 htwf.1 (by omega)]
      rw [getpos_eq _ t ht]
  
/-- C1 counterexample for the claim as stated: after `create 1024;
push; alloc 8; pop` the global position is restored to 0, but a next
allocation of 2048 bytes does not fit in the 1024-byte tail, opens a
fresh block, and returns the region at global byte offset 1024 ≠ 0 —
so "the next allocation returns a region starting at exactly that
offset" fails without the fit proviso. -/
theorem rewind_exactness_cx :
    get_current_position
        (arena_pop_marker (applyAllocs (arena_push_marker
          (applyAllocs (arena_create 1024) [])) [8])).blocks = 0 ∧
    (arena_alloc (arena_pop_marker (applyAllocs (arena_push_marker
          (applyAllocs (arena_create 1024) [])) [8])) 2048).1 = some 1024 ∧
    global_offset
        (arena_alloc (arena_pop_marker (applyAllocs (arena_push_marker
          (applyAllocs (arena_create 1024) [])) [8])) 2048).2.blocks 1024 = some 1024 ∧
    (1024 : Nat) ≠ 0 := by
  refine ⟨by decide, by decide, by decide, by norm_num⟩

/-- Concrete instance of `rewind_exactness`: `create 1024; alloc 16;
push; alloc 8; pop`, then an 8-byte request that fits: position is back
at 16 and the next region starts at global offset 16. -/
theorem rewind_exactness_w :
    get_current_position
        (arena_pop_marker (applyAllocs (arena_push_marker
          (applyAllocs (arena_create 1024) [16])) [8])).blocks
      = get_current_position (arena_push_marker (applyAllocs (arena_create 1024) [16])).blocks ∧
    (arena_alloc (arena_pop_marker (applyAllocs (arena_push_marker
          (applyAllocs (arena_create 1024) [16])) [8])) 8).1 = some 16 ∧
    global_offset
        (arena_pop_marker (applyAllocs (arena_push_marker
          (applyAllocs (arena_create 1024) [16])) [8])).blocks 16
      = some (get_current_position
          (arena_pop_marker (applyAllocs (arena_push_marker
            (applyAllocs (arena_create 1024) [16])) [8])).blocks) := by
  have h := rewind_exactness (arena_create 1024) [16] [8]
    (by decide) (by decide) (by decide) (by decide)
  have h2 := h.2 8 ⟨0, 16, 1024⟩ (by norm_num) (by unfold W64; norm_num) (by decide) (by decide)
  exact ⟨h.1, h2.1, h2.2⟩

/-! ### C2: in-place realloc eligibility -/

theorem alloc_mem (a : Arena) (bytes : Nat) : (arena_alloc a bytes).2.mem = a.mem := by
  simp only [arena_alloc]
  split_ifs with h0
  · rfl
  · rcases h : allocInChain a.blocks a.fresh (align_up bytes ARENA_ALIGNMENT)
      with _ | ⟨bs', p, fr'⟩ <;> rfl

theorem tryInPlace_skip (bs₁ rest : List Block) (p old new : Nat)
    (h : ∀ x ∈ bs₁, ¬(x.base ≤ p ∧ p < x.«end»)) :
    tryInPlace (bs₁ ++ rest) p old new
      = (tryInPlace rest p old new).map (fun r => bs₁ ++ r) := by
  induction bs₁ with
  | nil =>
    simp only [List.nil_append]
    cases tryInPlace rest p old new <;> simp
  | cons x xs ih =>
    have hx := h x (List.mem_cons_self x xs)
    simp only [List.cons_append, tryInPlace, List.append_eq]
    rw [if_neg hx]
    rw [ih (fun y hy => h y (List.mem_cons_of_mem _ hy))]
    cases tryInPlace rest p old new <;> simp

theorem tryInPlace_found (b : Block) (bs : List Block) (p old new : Nat)
    (hwfb : wfB b) (hcont : b.base ≤ p ∧ p < b.«end») :
    tryInPlace (b :: bs) p old new
      = if p + old = b.bump ∧ (new ≤ old ∨ b.bump + (new - old) ≤ b.«end»)
        then some ({ b with bump := p + new } :: bs)
        else none := by
  simp only [tryInPlace]
  rw [if_pos hcont]
  unfold wfB at hwfb
  by_cases h2 : p + old = b.bump
  · rw [if_pos h2]
    by_cases hno : new > old
    · rw [if_pos hno]
      by_cases hfits : b.bump + (new - old) ≤ b.«end»
      · rw [if_pos hfits, if_pos ⟨h2, Or.inr hfits⟩]
      · rw [if_neg hfits, if_neg (show ¬ new < old by omega),
          if_neg (show ¬ (p + old = b.bump ∧ (new ≤ old ∨ b.bump + (new - old) ≤ b.«end»)) by
            intro hc
            rcases hc.2 with hc2 | hc2 <;> omega)]
    · rw [if_neg hno]
      rw [if_pos (show b.bump + 0 ≤ b.«end» by omega)]
      rw [if_pos ⟨h2, Or.inl (by omega)⟩]
  · rw [if_neg h2, if_neg (fun hc => h2 hc.1)]

/-- C2 (amended): for a live pointer `p` inside block `b` of the chain,
`arena_realloc` resizes in place — returns `p` and only adjusts `b`'s
bump — if and only if `p` plus the aligned old size equals `b`'s bump
AND the resize shrinks or the grown bump still fits in `b`
(`b.bump + (new - old) ≤ b.end`); in every other case it returns a
fresh pointer `q ≠ p` and the first `min old_size new_size` bytes at
`q` equal the old bytes at `p`.  (The claim as stated omits the
fits-in-block condition; see `realloc_in_place_iff_cx`.) -/
theorem realloc_in_place_iff (a : Arena) (bs₁ bs₂ : List Block) (b : Block)
    (p old_size new_size : Nat)
    (hdec : a.blocks = bs₁ ++ b :: bs₂)
    (hwf : wfChain a.blocks) (hdj : disjointChain a.blocks) (hbf : belowFresh a)
    (hcont : b.base ≤ p ∧ p < b.«end»)
    (hlive : p + align_up old_size ARENA_ALIGNMENT ≤ b.bump)
    (ho : 0 < old_size) (how : old_size + 7 < W64)
    (hn : 0 < new_size) (hnw : new_size + 7 < W64) :
    ((arena_realloc a (some p) old_size new_size).1 = some p ↔
      (p + align_up old_size ARENA_ALIGNMENT = b.bump ∧
        (align_up new_size ARENA_ALIGNMENT ≤ align_up old_size ARENA_ALIGNMENT ∨
          b.bump + (align_up new_size ARENA_ALIGNMENT - align_up old_size ARENA_ALIGNMENT)
            ≤ b.«end»))) ∧
    ((p + align_up old_size ARENA_ALIGNMENT = b.bump ∧
        (align_up new_size ARENA_ALIGNMENT ≤ align_up old_size ARENA_ALIGNMENT ∨
          b.bump + (align_up new_size ARENA_ALIGNMENT - align_up old_size ARENA_ALIGNMENT)
            ≤ b.«end»)) →
      (arena_realloc a (some p) old_size new_size).2.blocks
        = bs₁ ++ { b with bump := p + align_up new_size ARENA_ALIGNMENT } :: bs₂ ∧
      (arena_realloc a (some p) old_size new_size).2.mem = a.mem) ∧
    (¬(p + align_up old_size ARENA_ALIGNMENT = b.bump ∧
        (align_up new_size ARENA_ALIGNMENT ≤ align_up old_size ARENA_ALIGNMENT ∨
          b.bump + (align_up new_size ARENA_ALIGNMENT - align_up old_size ARENA_ALIGNMENT)
            ≤ b.«end»)) →
      ∀ q, (arena_realloc a (some p) old_size new_size).1 = some q →
        q ≠ p ∧
        ∀ i, i < min old_size new_size →
          (arena_realloc a (some p) old_size new_size).2.mem (q + i) = a.mem (p + i)) := by
  have hwfb : wfB b := hwf b (by rw [hdec]; exact List.mem_append_right _ (List.mem_cons_self b bs₂))
  have hskip : ∀ x ∈ bs₁, ¬(x.base ≤ p ∧ p < x.«end») := by
    intro x hx
    have hrel : x.«end» ≤ b.base := by
      have hdj' := hdj
      unfold disjointChain at hdj'
      rw [hdec, List.pairwise_append] at hdj'
      exact hdj'.2.2 x hx b (List.mem_cons_self b bs₂)
    intro hc
    omega
  have htp : tryInPlace a.blocks p (align_up old_size ARENA_ALIGNMENT)
      (align_up new_size ARENA_ALIGNMENT)
      = if p + align_up old_size ARENA_ALIGNMENT = b.bump ∧
          (align_up new_size ARENA_ALIGNMENT ≤ align_up old_size ARENA_ALIGNMENT ∨
            b.bump + (align_up new_size ARENA_ALIGNMENT - align_up old_size ARENA_ALIGNMENT)
              ≤ b.«end»)
        then some (bs₁ ++ { b with bump := p + align_up new_size ARENA_ALIGNMENT } :: bs₂)
        else none := by
    rw [hdec, tryInPlace_skip bs₁ _ _ _ _ hskip,
      tryInPlace_found b bs₂ _ _ _ hwfb hcont]
    split_ifs with hc
    · rfl
    · rfl
  have hrw : arena_realloc a (some p) old_size new_size
      = if p + align_up old_size ARENA_ALIGNMENT = b.bump ∧
          (align_up new_size ARENA_ALIGNMENT ≤ align_up old_size ARENA_ALIGNMENT ∨
            b.bump + (align_up new_size ARENA_ALIGNMENT - align_up old_size ARENA_ALIGNMENT)
              ≤ b.«end»)
        then (some p,
          { a with blocks := bs₁ ++ { b with bump := p + align_up new_size ARENA_ALIGNMENT } :: bs₂ })
        else
          match arena_alloc a new_size with
          | (some q, a') =>
            (some q, { a' with mem := memcpy a'.mem q p (if align_up old_size ARENA_ALIGNMENT < align_up new_size ARENA_ALIGNMENT then align_up old_size ARENA_ALIGNMENT else align_up new_size ARENA_ALIGNMENT) })
          | (none, a') => (none, a') := by
    simp only [arena_realloc, if_neg (show ¬ new_size = 0 by omega)]
    rw [htp]
    split_ifs <;> rfl
  -- facts about the copy path
  have hne : a.blocks ≠ [] := by rw [hdec]; simp
  rcases hbs : a.blocks.getLast? with _ | t
  · rw [List.getLast?_eq_none_iff] at hbs; exact absurd hbs hne
  have htwf : wfB t := hwf t (List.mem_of_mem_getLast? hbs)
  have halign_old := align_up_pos old_size ho how
  have halign_new := align_up_pos new_size hn hnw
  have hpt : p < t.bump := by
    have hbt : (b :: bs₂).getLast? = some t := by
      rw [hdec] at hbs
      rwa [List.getLast?_append_of_ne_nil bs₁ (by simp)] at hbs
    rcases hbs₂ : bs₂ with _ | ⟨y, ys⟩
    · rw [hbs₂, List.getLast?_singleton, Option.some.injEq] at hbt
      subst hbt
      omega
    · rw [hbs₂, List.getLast?_cons_cons] at hbt
      have htm : t ∈ bs₂ := by rw [hbs₂]; exact List.mem_of_mem_getLast? hbt
      have hrel : b.«end» ≤ t.base := by
        have hdj' := hdj
        unfold disjointChain at hdj'
        rw [hdec, List.pairwise_append, List.pairwise_cons] at hdj'
        exact hdj'.2.1.1 t htm
      unfold wfB at htwf
      omega
  have hqp : ∀ q a', arena_alloc a new_size = (some q, a') → q ≠ p := by
    intro q a' halloc
    rw [arena_alloc_spec a t new_size (by omega) hbs] at halloc
    split_ifs at halloc with hcase
    · rw [Prod.mk.injEq] at halloc
      have hq : q = a.fresh := by
        have := halloc.1
        simp_all
      have hbp : b.«end» ≤ a.fresh :=
        hbf b (by rw [hdec]; exact List.mem_append_right _ (List.mem_cons_self b bs₂))
      omega
    · rw [Prod.mk.injEq] at halloc
      have hq : q = t.bump := by
        have := halloc.1
        simp_all
      omega
  by_cases hc : p + align_up old_size ARENA_ALIGNMENT = b.bump ∧
      (align_up new_size ARENA_ALIGNMENT ≤ align_up old_size ARENA_ALIGNMENT ∨
        b.bump + (align_up new_size ARENA_ALIGNMENT - align_up old_size ARENA_ALIGNMENT)
          ≤ b.«end»)
  · refine ⟨?_, ?_, fun hnc => absurd hc hnc⟩
    · rw [hrw, if_pos hc]
      exact iff_of_true rfl hc
    · intro _
      rw [hrw, if_pos hc]
      exact ⟨rfl, rfl⟩
  · refine ⟨?_, fun hyes => absurd hyes hc, ?_⟩
    · rw [hrw, if_neg hc]
      rcases halloc : arena_alloc a new_size with ⟨r, a'⟩
      cases r with
      | none => exact iff_of_false (by simp) hc
      | some q =>
        have hnq : q ≠ p := hqp q a' halloc
        exact iff_of_false (fun h => hnq (Option.some.inj h)) hc
    · intro _ q hq
      rw [hrw, if_neg hc] at hq ⊢
      rcases halloc : arena_alloc a new_size with ⟨r, a'⟩
      rw [halloc] at hq
      cases r with
      | none => exact absurd hq (by simp)
      | some q0 =>
        have hq' : some q0 = some q := hq
        have hqq : q0 = q := Option.some.inj hq'
        subst hqq
        refine ⟨hqp q0 a' halloc, ?_⟩
        have hmem : a'.mem = a.mem := by
          have h := alloc_mem a new_size
          rw [halloc] at h
          exact h
        intro i hi
        show memcpy a'.mem q0 p _ (q0 + i) = a.mem (p + i)
        unfold memcpy
        have h1 := le_align_up old_size (by omega)
        have h2 := le_align_up new_size (by omega)
        have hcopy : i < (if align_up old_size ARENA_ALIGNMENT < align_up new_size ARENA_ALIGNMENT
            then align_up old_size ARENA_ALIGNMENT else align_up new_size ARENA_ALIGNMENT) := by
          rw [Nat.min_def] at hi
          split_ifs at hi <;> split_ifs <;> omega
        rw [if_pos ⟨by omega, by omega⟩]
        rw [hmem]
        congr 1
        omega

/-- C2 counterexample for the claim as stated: in `create 64; alloc 16`
the pointer 0 satisfies the claimed in-place condition
(`ptr + align_up old_size = bump` of its containing block), yet
`realloc(0, 16, 128)` cannot grow in place (128 > 64 - 16 remaining)
and returns the fresh pointer 64 of a new block instead of 0 — the
"if" direction of the claimed iff fails. -/
theorem realloc_in_place_iff_cx :
    (0 + align_up 16 ARENA_ALIGNMENT = (16 : Nat)) ∧
    (arena_alloc (arena_create 64) 16).2.blocks = [⟨0, 16, 64⟩] ∧
    (arena_realloc (arena_alloc (arena_create 64) 16).2 (some 0) 16 128).1 = some 64 ∧
    some (64 : Nat) ≠ some (0 : Nat) := by
  refine ⟨by decide, by decide, by decide, by simp⟩

/-- Concrete instance of `realloc_in_place_iff`: shrinking the 16-byte
allocation at 0 to 8 bytes in `create 64; alloc 16` resizes in place. -/
theorem realloc_in_place_iff_w :
    ((arena_realloc (arena_alloc (arena_create 64) 16).2 (some 0) 16 8).1 = some 0) ∧
    (arena_realloc (arena_alloc (arena_create 64) 16).2 (some 0) 16 8).2.blocks
      = [] ++ { Block.mk 0 16 64 with bump := 0 + align_up 8 ARENA_ALIGNMENT } :: [] ∧
    (arena_realloc (arena_alloc (arena_create 64) 16).2 (some 0) 16 8).2.mem
      = (arena_alloc (arena_create 64) 16).2.mem := by
  have h := realloc_in_place_iff (arena_alloc (arena_create 64) 16).2 [] [] ⟨0, 16, 64⟩
    0 16 8 (by decide) (by decide) (by decide) (by decide) (by decide) (by decide)
    (by norm_num) (by unfold W64; norm_num) (by norm_num) (by unfold W64; norm_num)
  have hC : (0 : Nat) + align_up 16 ARENA_ALIGNMENT = (Block.mk 0 16 64).bump ∧
      (align_up 8 ARENA_ALIGNMENT ≤ align_up 16 ARENA_ALIGNMENT ∨
        (Block.mk 0 16 64).bump +
          (align_up 8 ARENA_ALIGNMENT - align_up 16 ARENA_ALIGNMENT) ≤ (Block.mk 0 16 64).«end») := by
    refine ⟨by decide, Or.inl (by decide)⟩
  exact ⟨h.1.mpr hC, (h.2.1 hC).1, (h.2.1 hC).2⟩

/-! ### Arithmetic of the pop-walk landing functions -/

theorem sum_take_le (l : List Nat) (n : Nat) : (l.take n).sum ≤ l.sum := by
  conv_rhs => rw [← List.take_append_drop n l]
  rw [List.sum_append]
  omega

theorem capsOf_append (l1 l2 : List Block) : capsOf (l1 ++ l2) = capsOf l1 ++ capsOf l2 := by
  simp [capsOf]

theorem capsOf_set_bump_last (bs : List Block) (t : Block) (x : Nat)
    (ht : bs.getLast? = some t) :
    capsOf (bs.dropLast ++ [{ t with bump := x }]) = capsOf bs := by
  conv_rhs => rw [← List.dropLast_append_getLast? t ht]
  rw [capsOf_append, capsOf_append]
  rfl

theorem capTotal_eq_sum_capsOf (bs : List Block) : capTotal bs = (capsOf bs).sum := rfl

theorem land_prefix (caps1 caps2 : List Nat) (g c : Nat) (h : g ≤ c + caps1.sum) :
    landIdx (caps1 ++ caps2) g c = landIdx caps1 g c ∧
    landOff (caps1 ++ caps2) g c = landOff caps1 g c := by
  induction caps1 generalizing c with
  | nil =>
    simp only [List.sum_nil, Nat.add_zero] at h
    cases caps2 with
    | nil => exact ⟨rfl, rfl⟩
    | cons cap rest =>
      simp only [List.nil_append, landIdx, landOff]
      rw [if_pos (by omega), if_pos (by omega)]
      exact ⟨rfl, rfl⟩
  | cons cap caps ih =>
    rw [List.sum_cons] at h
    simp only [List.cons_append, landIdx, landOff]
    by_cases hc : g ≤ c + cap
    · rw [if_pos hc, if_pos hc, if_pos hc, if_pos hc]
      exact ⟨rfl, rfl⟩
    · rw [if_neg hc, if_neg hc, if_neg hc, if_neg hc]
      have hih := ih (c + cap) (by omega)
      exact ⟨congrArg (fun n => n + 1) hih.1, hih.2⟩

theorem land_take (caps : List Nat) (k g c : Nat) (h : g ≤ c + (caps.take k).sum) :
    landIdx (caps.take k) g c = landIdx caps g c ∧
    landOff (caps.take k) g c = landOff caps g c := by
  have hsplit : caps = caps.take k ++ caps.drop k := (List.take_append_drop k caps).symm
  have := land_prefix (caps.take k) (caps.drop k) g c h
  constructor
  · rw [← this.1]
    conv_rhs => rw [hsplit]
  · rw [← this.2]
    conv_rhs => rw [hsplit]

theorem land_lt_length (caps : List Nat) (g c : Nat) (hne : caps ≠ [])
    (h : g ≤ c + caps.sum) : landIdx caps g c < caps.length := by
  induction caps generalizing c with
  | nil => exact absurd rfl hne
  | cons cap rest ih =>
    rw [List.sum_cons] at h
    simp only [landIdx, List.length_cons]
    split_ifs with hc
    · omega
    · have hrest : rest ≠ [] := by
        intro hr
        subst hr
        simp at h
        omega
      have := ih (c + cap) hrest (by omega)
      omega

theorem land_le_sum (caps : List Nat) (g c : Nat) (h : landIdx caps g c < caps.length) :
    g ≤ c + (caps.take (landIdx caps g c + 1)).sum := by
  induction caps generalizing c with
  | nil => simp at h
  | cons cap rest ih =>
    simp only [landIdx] at h ⊢
    split_ifs at h ⊢ with hc
    · simp only [List.take_succ_cons, List.take_zero, List.sum_cons, List.sum_nil]
      omega
    · simp only [List.length_cons] at h
      have := ih (c + cap) (by omega)
      simp only [List.take_succ_cons, List.sum_cons]
      omega

theorem land_shift (caps : List Nat) (x c : Nat) :
    landIdx caps (c + x) c = landIdx caps x 0 ∧
    landOff caps (c + x) c = landOff caps x 0 := by
  induction caps generalizing x c with
  | nil =>
    refine ⟨rfl, ?_⟩
    simp only [landOff]
    omega
  | cons cap rest ih =>
    by_cases hc : x ≤ cap
    · simp only [landIdx, landOff]
      rw [if_pos (by omega : c + x ≤ c + cap), if_pos (by omega : x ≤ 0 + cap),
        if_pos (by omega : c + x ≤ c + cap), if_pos (by omega : x ≤ 0 + cap)]
      exact ⟨rfl, by omega⟩
    · simp only [landIdx, landOff]
      rw [if_neg (by omega : ¬ c + x ≤ c + cap), if_neg (by omega : ¬ x ≤ 0 + cap),
        if_neg (by omega : ¬ c + x ≤ c + cap), if_neg (by omega : ¬ x ≤ 0 + cap)]
      have h1 : c + x = (c + cap) + (x - cap) := by omega
      have ha := ih (x - cap) (c + cap)
      have hb := ih (x - cap) cap
      have hb1 : landIdx rest x (0 + cap) = landIdx rest (x - cap) 0 := by
        rw [← hb.1]
        congr 1 <;> omega
      have hb2 : landOff rest x (0 + cap) = landOff rest (x - cap) 0 := by
        rw [← hb.2]
        congr 1 <;> omega
      constructor
      · rw [h1, ha.1, hb1]
      · rw [h1, ha.2, hb2]

/-! ### Structure of `popWalk` and of the pushed position -/

theorem capsOf_popWalk (bs : List Block) (g c : Nat) (h : g ≤ c + capTotal bs) :
    capsOf (popWalk bs g c) = (capsOf bs).take (landIdx (capsOf bs) g c + 1) := by
  induction bs generalizing c with
  | nil => rfl
  | cons b rest ih =>
    rw [capTotal_cons] at h
    simp only [popWalk, capsOf, List.map_cons, landIdx]
    split_ifs with hc
    · rfl
    · rw [List.take_succ_cons]
      have hih := ih (c + blockCap b) (by omega)
      simp only [capsOf] at hih
      rw [List.map_cons, hih]

theorem alignedChain_popWalk (bs : List Block) (g c : Nat)
    (ha : alignedChain bs) (hoff : 8 ∣ landOff (capsOf bs) g c) :
    alignedChain (popWalk bs g c) := by
  induction bs generalizing c with
  | nil => exact ha
  | cons b rest ih =>
    have hab := ha b (List.mem_cons_self b rest)
    have harest : alignedChain rest := fun x hx => ha x (List.mem_cons_of_mem _ hx)
    simp only [capsOf, List.map_cons, landOff] at hoff
    unfold popWalk
    split_ifs with hc
    · rw [if_pos hc] at hoff
      intro x hx
      simp only [List.mem_singleton] at hx
      subst hx
      simp only
      omega
    · rw [if_neg hc] at hoff
      intro x hx
      rcases List.mem_cons.mp hx with hx | hx
      · subst hx; exact hab
      · exact ih (c + blockCap b) harest hoff x hx

theorem popWalk_tail_off (bs : List Block) (g c : Nat) (hcg : c < g)
    (hub : g ≤ c + capTotal bs) :
    ∀ t', (popWalk bs g c).getLast? = some t' → t'.base < t'.bump := by
  induction bs generalizing c with
  | nil =>
    intro t' ht'
    simp [popWalk] at ht'
  | cons b rest ih =>
    rw [capTotal_cons] at hub
    intro t' ht'
    unfold popWalk at ht'
    split_ifs at ht' with hc
    · simp only [List.getLast?_singleton, Option.some.injEq] at ht'
      subst ht'
      show b.base < b.base + (g - c)
      omega
    · have hrest_ne : rest ≠ [] := by
        intro hr
        subst hr
        simp [capTotal] at hub
        unfold blockCap at hc hub
        omega
      have hpw := popWalk_ne_nil rest g (c + blockCap b) hrest_ne
      rcases hpwe : popWalk rest g (c + blockCap b) with _ | ⟨y, ys⟩
      · exact absurd hpwe hpw
      · rw [hpwe, List.getLast?_cons_cons] at ht'
        have := ih (c + blockCap b) (by omega) (by omega) t'
        rw [hpwe] at this
        exact this ht'

theorem getpos_pos (bs : List Block) (t : Block) (ht : bs.getLast? = some t)
    (hoff : t.base < t.bump) : 0 < get_current_position bs := by
  rw [getpos_eq bs t ht]
  omega

/-- Where the pop walk lands for the current position: at the tail
block, with in-block offset exactly the tail's bump offset. -/
theorem land_getpos (bs : List Block) (t : Block) (ht : bs.getLast? = some t)
    (hwf : wfChain bs)
    (hnz : bs.length = 1 ∨ t.base < t.bump) :
    landIdx (capsOf bs) (get_current_position bs) 0 = bs.length - 1 ∧
    landOff (capsOf bs) (get_current_position bs) 0 = t.bump - t.base := by
  induction bs with
  | nil => simp at ht
  | cons b rest ih =>
    cases rest with
    | nil =>
      simp only [List.getLast?_singleton, Option.some.injEq] at ht
      subst ht
      have hwfb := hwf b (List.mem_cons_self b [])
      unfold wfB at hwfb
      have hcaps : capsOf [b] = [blockCap b] := rfl
      have hG : get_current_position [b] = b.bump - b.base := rfl
      rw [hcaps, hG]
      have hidx : landIdx [blockCap b] (b.bump - b.base) 0 = 0 := by
        simp only [landIdx]
        rw [if_pos (by unfold blockCap; omega)]
      have hoff : landOff [blockCap b] (b.bump - b.base) 0 = b.bump - b.base - 0 := by
        simp only [landOff]
        rw [if_pos (by unfold blockCap; omega)]
      rw [hidx, hoff]
      exact ⟨rfl, by omega⟩
    | cons b' rest' =>
      rw [List.getLast?_cons_cons] at ht
      have hnz' : t.base < t.bump := by
        rcases hnz with hnz | hnz
        · simp at hnz
        · exact hnz
      have hpos : 0 < get_current_position (b' :: rest') :=
        getpos_pos (b' :: rest') t ht hnz'
      have hwfrest : wfChain (b' :: rest') := fun x hx => hwf x (List.mem_cons_of_mem _ hx)
      have hih := ih ht hwfrest (Or.inr hnz')
      have hcaps : capsOf (b :: b' :: rest') = blockCap b :: capsOf (b' :: rest') := rfl
      have hG : get_current_position (b :: b' :: rest')
          = blockCap b + get_current_position (b' :: rest') := rfl
      have hs := land_shift (capsOf (b' :: rest')) (get_current_position (b' :: rest'))
        (blockCap b)
      have hz : (0 : Nat) + blockCap b = blockCap b := by omega
      rw [hcaps, hG]
      constructor
      · have hstep : landIdx (blockCap b :: capsOf (b' :: rest'))
            (blockCap b + get_current_position (b' :: rest')) 0
            = landIdx (capsOf (b' :: rest'))
                (blockCap b + get_current_position (b' :: rest')) (0 + blockCap b) + 1 := by
          simp only [landIdx]
          rw [if_neg (by omega)]
        rw [hstep, hz, hs.1, hih.1]
        simp only [List.length_cons]
        omega
      · have hstep : landOff (blockCap b :: capsOf (b' :: rest'))
            (blockCap b + get_current_position (b' :: rest')) 0
            = landOff (capsOf (b' :: rest'))
                (blockCap b + get_current_position (b' :: rest')) (0 + blockCap b) := by
          simp only [landOff]
          rw [if_neg (by omega)]
        rw [hstep, hz, hs.2, hih.2]

/-! ### Shape of a successful in-place realloc -/

theorem tryInPlace_shape (bs : List Block) (p old new : Nat) (bs' : List Block)
    (h : tryInPlace bs p old new = some bs') :
    capsOf bs' = capsOf bs ∧
    ((8 ∣ old ∧ 8 ∣ new ∧ alignedChain bs) → alignedChain bs') ∧
    (∀ t', bs'.getLast? = some t' →
      ∃ t, bs.getLast? = some t ∧ t'.base = t.base ∧ t'.«end» = t.«end» ∧
        (t' = t ∨ (t.base ≤ p ∧ t'.bump = p + new ∧ t.bump = p + old))) := by
  induction bs generalizing bs' with
  | nil => simp [tryInPlace] at h
  | cons b rest ih =>
    simp only [tryInPlace] at h
    by_cases h1 : b.base ≤ p ∧ p < b.«end»
    · rw [if_pos h1] at h
      split_ifs at h with h2 h3 h4
      all_goals first
        | exact Option.noConfusion h
        | (rw [Option.some.injEq] at h
           subst h
           refine ⟨rfl, ?_, ?_⟩
           · intro ⟨hdo, hdn, ha⟩
             intro x hx
             rcases List.mem_cons.mp hx with hx | hx
             · subst hx
               have hab := ha b (List.mem_cons_self b rest)
               show (8 : Nat) ∣ p + new - b.base
               omega
             · exact ha x (List.mem_cons_of_mem _ hx)
           · intro t' ht'
             cases rest with
             | nil =>
               simp only [List.getLast?_singleton, Option.some.injEq] at ht'
               subst ht'
               exact ⟨b, rfl, rfl, rfl, Or.inr ⟨h1.1, rfl, h2.symm⟩⟩
             | cons y ys =>
               rw [List.getLast?_cons_cons] at ht'
               rcases hlast : (y :: ys).getLast? with _ | t0
               · rw [List.getLast?_eq_none_iff] at hlast
                 simp at hlast
               · rw [hlast, Option.some.injEq] at ht'
                 subst ht'
                 rw [List.getLast?_cons_cons, hlast]
                 exact ⟨t0, rfl, rfl, rfl, Or.inl rfl⟩)
    · rw [if_neg h1] at h
      rcases hrec : tryInPlace rest p old new with _ | bs''
      · rw [hrec] at h; exact Option.noConfusion h
      · rw [hrec, Option.some.injEq] at h
        subst h
        obtain ⟨hcaps, halign, hlast⟩ := ih bs'' hrec
        have hrest_ne : rest ≠ [] := by
          intro hr
          subst hr
          simp [tryInPlace] at hrec
        have hbs_ne : bs'' ≠ [] := by
          intro hb
          subst hb
          have hce : capsOf rest = [] := by rw [← hcaps]; rfl
          have hre : rest = [] := by
            cases rest with
            | nil => rfl
            | cons w ws => simp [capsOf] at hce
          exact hrest_ne hre
        refine ⟨?_, ?_, ?_⟩
        · show blockCap b :: capsOf bs'' = blockCap b :: capsOf rest
          rw [hcaps]
        · intro ⟨hdo, hdn, ha⟩
          intro x hx
          rcases List.mem_cons.mp hx with hx | hx
          · subst hx; exact ha x (List.mem_cons_self x rest)
          · exact halign ⟨hdo, hdn, fun z hz => ha z (List.mem_cons_of_mem _ hz)⟩ x hx
        · intro t' ht'
          have ht'' : bs''.getLast? = some t' := by
            cases bs'' with
            | nil => exact absurd rfl hbs_ne
            | cons z zs => rwa [List.getLast?_cons_cons] at ht'
          obtain ⟨t, hta, htb, htc, htd⟩ := hlast t' ht''
          refine ⟨t, ?_, htb, htc, htd⟩
          cases rest with
          | nil => exact absurd rfl hrest_ne
          | cons w ws =>
            rw [List.getLast?_cons_cons]
            exact hta

/-! ### Preservation of the internal invariant -/

theorem markerFits_congr (bs1 bs2 : List Block) (m : Nat) (h : capsOf bs1 = capsOf bs2)
    (hm : markerFits bs1 m) : markerFits bs2 m := by
  unfold markerFits at hm ⊢
  rw [capTotal_eq_sum_capsOf, ← h]
  rw [capTotal_eq_sum_capsOf] at hm
  exact hm

theorem landMono_congr (bs1 bs2 : List Block) (ms : List Nat) (h : capsOf bs1 = capsOf bs2)
    (hm : landMono bs1 ms) : landMono bs2 ms := by
  unfold landMono at hm ⊢
  rw [← h]
  exact hm

theorem inv_of_eq (a b : Arena) (hb : a.blocks = b.blocks) (hm : a.markers = b.markers)
    (h : ArenaInv a) : ArenaInv b := by
  unfold ArenaInv at h ⊢
  rw [← hb, ← hm]
  exact h

theorem inv_create (n : Nat) : ArenaInv (arena_create n) := by
  refine ⟨by simp [arena_create], wfChain_create n, ?_, ?_, ?_, ?_⟩
  · intro b hb
    simp only [arena_create, List.mem_singleton] at hb
    subst hb
    simp
  · intro hlen
    simp [arena_create] at hlen
  · intro m hm
    simp [arena_create] at hm
  · unfold landMono
    show List.Pairwise _ ([] : List Nat)
    exact List.Pairwise.nil

theorem inv_alloc (a : Arena) (bytes : Nat) (h : ArenaInv a) :
    ArenaInv (arena_alloc a bytes).2 := by
  obtain ⟨hne, hwf, hal, hnz, hmf, hlm⟩ := h
  by_cases h0 : bytes = 0
  · rw [h0, arena_alloc_zero]; exact ⟨hne, hwf, hal, hnz, hmf, hlm⟩
  rcases hbs : a.blocks.getLast? with _ | t
  · rw [List.getLast?_eq_none_iff] at hbs; exact absurd hbs hne
  have hdec := List.dropLast_append_getLast? t hbs
  have hwft := hwf t (List.mem_of_mem_getLast? hbs)
  have hdvd := align_up_dvd bytes
  rw [arena_alloc_spec a t bytes h0 hbs]
  split_ifs with hcase
  · -- a new block is chained on
    have hapos : 0 < align_up bytes ARENA_ALIGNMENT := by
      unfold wfB at hwft
      omega
    have hge := grownSize_ge (blockCap t) (align_up bytes ARENA_ALIGNMENT)
    have hgpos := grownSize_pos (blockCap t) (align_up bytes ARENA_ALIGNMENT)
    refine ⟨by simp, ?_, ?_, ?_, ?_, ?_⟩
    · intro b hb
      simp only [List.mem_append, List.mem_singleton] at hb
      rcases hb with hb | hb
      · exact hwf b hb
      · subst hb
        unfold wfB
        refine ⟨?_, ?_, ?_⟩
        · show a.fresh ≤ a.fresh + align_up bytes ARENA_ALIGNMENT
          omega
        · show a.fresh + align_up bytes ARENA_ALIGNMENT
            ≤ a.fresh + grownSize (blockCap t) (align_up bytes ARENA_ALIGNMENT)
          omega
        · show a.fresh < a.fresh + grownSize (blockCap t) (align_up bytes ARENA_ALIGNMENT)
          omega
    · intro b hb
      simp only [List.mem_append, List.mem_singleton] at hb
      rcases hb with hb | hb
      · exact hal b hb
      · subst hb
        show (8 : Nat) ∣ a.fresh + align_up bytes ARENA_ALIGNMENT - a.fresh
        omega
    · intro _ t' ht'
      have ht'2 : (a.blocks ++ [(⟨a.fresh, a.fresh + align_up bytes ARENA_ALIGNMENT,
          a.fresh + grownSize (blockCap t) (align_up bytes ARENA_ALIGNMENT)⟩ : Block)]).getLast?
          = some t' := ht'
      simp only [List.getLast?_concat, Option.some.injEq] at ht'2
      subst ht'2
      show a.fresh < a.fresh + align_up bytes ARENA_ALIGNMENT
      omega
    · intro m hm
      have hm' : m ∈ a.markers := hm
      have hfit := hmf m hm'
      have hland := land_prefix (capsOf a.blocks)
        (capsOf [(⟨a.fresh, a.fresh + align_up bytes ARENA_ALIGNMENT,
          a.fresh + grownSize (blockCap t) (align_up bytes ARENA_ALIGNMENT)⟩ : Block)]) m 0
        (by rw [← capTotal_eq_sum_capsOf]; have := hfit.1; omega)
      show markerFits (a.blocks ++ [(⟨a.fresh, a.fresh + align_up bytes ARENA_ALIGNMENT,
        a.fresh + grownSize (blockCap t) (align_up bytes ARENA_ALIGNMENT)⟩ : Block)]) m
      unfold markerFits at hfit ⊢
      rw [capTotal_eq_sum_capsOf]
      rw [show capsOf (a.blocks ++ [(⟨a.fresh, a.fresh + align_up bytes ARENA_ALIGNMENT,
          a.fresh + grownSize (blockCap t) (align_up bytes ARENA_ALIGNMENT)⟩ : Block)])
        = capsOf a.blocks ++ capsOf [(⟨a.fresh, a.fresh + align_up bytes ARENA_ALIGNMENT,
          a.fresh + grownSize (blockCap t) (align_up bytes ARENA_ALIGNMENT)⟩ : Block)]
        from capsOf_append _ _]
      rw [List.sum_append, hland.2]
      rw [capTotal_eq_sum_capsOf] at hfit
      exact ⟨by have := hfit.1; omega, hfit.2⟩
    · show landMono (a.blocks ++ [(⟨a.fresh, a.fresh + align_up bytes ARENA_ALIGNMENT,
        a.fresh + grownSize (blockCap t) (align_up bytes ARENA_ALIGNMENT)⟩ : Block)]) a.markers
      unfold landMono at hlm ⊢
      refine List.Pairwise.imp_of_mem ?_ hlm
      intro x y hx hy hxy
      have hlx := land_prefix (capsOf a.blocks) (capsOf [(⟨a.fresh,
          a.fresh + align_up bytes ARENA_ALIGNMENT,
          a.fresh + grownSize (blockCap t) (align_up bytes ARENA_ALIGNMENT)⟩ : Block)]) x 0
        (by rw [← capTotal_eq_sum_capsOf]; have := (hmf x hx).1; omega)
      have hly := land_prefix (capsOf a.blocks) (capsOf [(⟨a.fresh,
          a.fresh + align_up bytes ARENA_ALIGNMENT,
          a.fresh + grownSize (blockCap t) (align_up bytes ARENA_ALIGNMENT)⟩ : Block)]) y 0
        (by rw [← capTotal_eq_sum_capsOf]; have := (hmf y hy).1; omega)
      rw [capsOf_append, hlx.1, hly.1]
      exact hxy
  · -- the request fits in the tail
    have hcaps : capsOf (a.blocks.dropLast ++
        [{ t with bump := t.bump + align_up bytes ARENA_ALIGNMENT }]) = capsOf a.blocks :=
      capsOf_set_bump_last a.blocks t _ hbs
    refine ⟨by simp, ?_, ?_, ?_, ?_, ?_⟩
    · intro b hb
      simp only [List.mem_append, List.mem_singleton] at hb
      rcases hb with hb | hb
      · exact hwf b (List.dropLast_subset _ hb)
      · subst hb
        unfold wfB at hwft ⊢
        simp only
        omega
    · intro b hb
      simp only [List.mem_append, List.mem_singleton] at hb
      rcases hb with hb | hb
      · exact hal b (List.dropLast_subset _ hb)
      · subst hb
        have halt := hal t (List.mem_of_mem_getLast? hbs)
        show (8 : Nat) ∣ t.bump + align_up bytes ARENA_ALIGNMENT - t.base
        unfold wfB at hwft
        omega
    · intro hlen t' ht'
      have hlen0 : 1 < (a.blocks.dropLast ++
          [{ t with bump := t.bump + align_up bytes ARENA_ALIGNMENT }]).length := hlen
      have ht'2 : (a.blocks.dropLast ++
          [{ t with bump := t.bump + align_up bytes ARENA_ALIGNMENT }]).getLast?
          = some t' := ht'
      simp only [List.getLast?_concat, Option.some.injEq] at ht'2
      subst ht'2
      have hlen' : 1 < a.blocks.length := by
        rw [List.length_append, List.length_dropLast] at hlen0
        have h3 : a.blocks.length ≠ 0 := by
          intro hz
          rw [List.length_eq_zero] at hz
          exact hne hz
        simp at hlen0
        omega
      have := hnz hlen' t hbs
      show t.base < t.bump + align_up bytes ARENA_ALIGNMENT
      omega
    · intro m hm
      have hm' : m ∈ a.markers := hm
      exact markerFits_congr a.blocks _ m hcaps.symm (hmf m hm')
    · exact landMono_congr a.blocks _ a.markers hcaps.symm hlm

theorem capsOf_ne_nil (bs : List Block) (h : bs ≠ []) : capsOf bs ≠ [] := by
  cases bs with
  | nil => exact absurd rfl h
  | cons b rest => simp [capsOf]

theorem inv_push (a : Arena) (h : ArenaInv a) : ArenaInv (arena_push_marker a) := by
  obtain ⟨hne, hwf, hal, hnz, hmf, hlm⟩ := h
  rcases hbs : a.blocks.getLast? with _ | t
  · rw [List.getLast?_eq_none_iff] at hbs; exact absurd hbs hne
  have hwft := hwf t (List.mem_of_mem_getLast? hbs)
  have hnz' : a.blocks.length = 1 ∨ t.base < t.bump := by
    rcases Nat.lt_or_ge 1 a.blocks.length with hl | hl
    · exact Or.inr (hnz hl t hbs)
    · left
      have : a.blocks.length ≠ 0 := by
        intro hz
        rw [List.length_eq_zero] at hz
        exact hne hz
      omega
  have hland := land_getpos a.blocks t hbs hwf hnz'
  have hpos := getpos_le_capTotal a.blocks hwf
  refine ⟨hne, hwf, hal, hnz, ?_, ?_⟩
  · intro m hm
    have hm2 : m ∈ a.markers ++ [get_current_position a.blocks] := hm
    rw [List.mem_append, List.mem_singleton] at hm2
    rcases hm2 with hm2 | hm2
    · exact hmf m hm2
    · subst hm2
      refine ⟨hpos, ?_⟩
      show (8 : Nat) ∣ landOff (capsOf a.blocks) (get_current_position a.blocks) 0
      rw [hland.2]
      exact hal t (List.mem_of_mem_getLast? hbs)
  · show landMono a.blocks (a.markers ++ [get_current_position a.blocks])
    unfold landMono at hlm ⊢
    rw [List.pairwise_append]
    refine ⟨hlm, List.pairwise_singleton _ _, ?_⟩
    intro x hx y hy
    rw [List.mem_singleton] at hy
    subst hy
    rw [hland.1]
    have hxfit := hmf x hx
    have hcne : capsOf a.blocks ≠ [] := capsOf_ne_nil a.blocks hne
    have hlt := land_lt_length (capsOf a.blocks) x 0 hcne
      (by rw [← capTotal_eq_sum_capsOf]; have := hxfit.1; omega)
    have hlen : (capsOf a.blocks).length = a.blocks.length := by simp [capsOf]
    omega

theorem inv_reset (a : Arena) (h : ArenaInv a) : ArenaInv (arena_reset a) := by
  obtain ⟨hne, hwf, hal, hnz, hmf, hlm⟩ := h
  rcases hbs : a.blocks with _ | ⟨b, rest⟩
  · exact absurd hbs hne
  have hwfb := hwf b (by rw [hbs]; exact List.mem_cons_self b rest)
  have hblocks := arena_reset_blocks a b rest hbs
  have hmarkers : (arena_reset a).markers = [] := by
    unfold arena_reset
    rw [hbs]
  refine ⟨by rw [hblocks]; simp, ?_, ?_, ?_, ?_, ?_⟩
  · rw [hblocks]
    intro x hx
    rw [List.mem_singleton] at hx
    subst hx
    unfold wfB at hwfb ⊢
    simp only
    omega
  · rw [hblocks]
    intro x hx
    rw [List.mem_singleton] at hx
    subst hx
    show (8 : Nat) ∣ b.base - b.base
    omega
  · rw [hblocks]
    intro hlen
    simp at hlen
  · rw [hmarkers]
    intro m hm
    simp at hm
  · rw [hmarkers]
    show List.Pairwise _ ([] : List Nat)
    exact List.Pairwise.nil

theorem inv_pop (a : Arena) (h : ArenaInv a) : ArenaInv (arena_pop_marker a) := by
  obtain ⟨hne, hwf, hal, hnz, hmf, hlm⟩ := h
  unfold arena_pop_marker
  rcases hms : a.markers.getLast? with _ | g
  · exact ⟨hne, hwf, hal, hnz, hmf, hlm⟩
  have hgm : g ∈ a.markers := List.mem_of_mem_getLast? hms
  have hgfit := hmf g hgm
  have hcne : capsOf a.blocks ≠ [] := capsOf_ne_nil a.blocks hne
  have hgs : g ≤ 0 + (capsOf a.blocks).sum := by
    rw [← capTotal_eq_sum_capsOf]
    have := hgfit.1
    omega
  have hj := land_lt_length (capsOf a.blocks) g 0 hcne hgs
  have hcapsw := capsOf_popWalk a.blocks g 0
    (by have := hgfit.1; omega)
  have hmdec := List.dropLast_append_getLast? g hms
  have hcross : ∀ m ∈ a.markers.dropLast,
      landIdx (capsOf a.blocks) m 0 ≤ landIdx (capsOf a.blocks) g 0 := by
    intro m hm
    have hpw := hlm
    unfold landMono at hpw
    rw [← hmdec, List.pairwise_append] at hpw
    exact hpw.2.2 m hm g (List.mem_singleton.mpr rfl)
  have hsurv : ∀ m ∈ a.markers.dropLast,
      m ≤ 0 + (capsOf (popWalk a.blocks g 0)).sum := by
    intro m hm
    have hmfit := hmf m (List.dropLast_subset _ hm)
    have hmi := land_lt_length (capsOf a.blocks) m 0 hcne
      (by rw [← capTotal_eq_sum_capsOf]; have := hmfit.1; omega)
    have hle := land_le_sum (capsOf a.blocks) m 0 hmi
    have hmono : ((capsOf a.blocks).take (landIdx (capsOf a.blocks) m 0 + 1)).sum
        ≤ ((capsOf a.blocks).take (landIdx (capsOf a.blocks) g 0 + 1)).sum := by
      have hij := hcross m hm
      have htt : (capsOf a.blocks).take (landIdx (capsOf a.blocks) m 0 + 1)
          = ((capsOf a.blocks).take (landIdx (capsOf a.blocks) g 0 + 1)).take
              (landIdx (capsOf a.blocks) m 0 + 1) := by
        rw [List.take_take]
        congr 1
        omega
      rw [htt]
      exact sum_take_le _ _
    rw [hcapsw]
    omega
  refine ⟨popWalk_ne_nil a.blocks g 0 hne, wfChain_popWalk a.blocks g 0 hwf, ?_, ?_, ?_, ?_⟩
  · exact alignedChain_popWalk a.blocks g 0 hal hgfit.2
  · intro hlen t' ht'
    rcases Nat.eq_zero_or_pos g with hg0 | hgpos
    · subst hg0
      exfalso
      rcases hbs : a.blocks with _ | ⟨b, rest⟩
      · exact hne hbs
      · have hpw0 : popWalk (b :: rest) 0 0 = [{ b with bump := b.base + (0 - 0) }] := by
          unfold popWalk
          rw [if_pos (by omega)]
        rw [hbs] at hlen
        have hlen2 : 1 < (popWalk (b :: rest) 0 0).length := hlen
        rw [hpw0] at hlen2
        simp at hlen2
    · exact popWalk_tail_off a.blocks g 0 hgpos (by have := hgfit.1; omega) t' ht'
  · intro m hm
    have hm' : m ∈ a.markers.dropLast := hm
    have hmfit := hmf m (List.dropLast_subset _ hm')
    have hms' := hsurv m hm'
    have hland := land_take (capsOf a.blocks) (landIdx (capsOf a.blocks) g 0 + 1) m 0
      (by rw [← hcapsw]; exact hms')
    show markerFits (popWalk a.blocks g 0) m
    refine ⟨?_, ?_⟩
    · rw [capTotal_eq_sum_capsOf]
      omega
    · rw [hcapsw, hland.2]
      exact hmfit.2
  · show landMono (popWalk a.blocks g 0) a.markers.dropLast
    unfold landMono at hlm ⊢
    have hsub : a.markers.dropLast.Pairwise
        (fun x y => landIdx (capsOf a.blocks) x 0 ≤ landIdx (capsOf a.blocks) y 0) :=
      hlm.sublist (List.dropLast_sublist _)
    refine List.Pairwise.imp_of_mem ?_ hsub
    intro x y hx hy hxy
    have hlx := land_take (capsOf a.blocks) (landIdx (capsOf a.blocks) g 0 + 1) x 0
      (by rw [← hcapsw]; exact hsurv x hx)
    have hly := land_take (capsOf a.blocks) (landIdx (capsOf a.blocks) g 0 + 1) y 0
      (by rw [← hcapsw]; exact hsurv y hy)
    rw [hcapsw, hlx.1, hly.1]
    exact hxy

theorem calloc_markers (a : Arena) (num size : Nat) :
    (arena_calloc a num size).2.markers = (arena_alloc a ((num * size) % W64)).2.markers := by
  simp only [arena_calloc]
  rcases halloc : arena_alloc a (num * size % W64) with ⟨r, a'⟩
  cases r <;> rfl

theorem strdup_markers (a : Arena) (s : List Nat) :
    (arena_strdup a (some s)).2.markers = (arena_alloc a (s.length + 1)).2.markers := by
  simp only [arena_strdup]
  rcases halloc : arena_alloc a (s.length + 1) with ⟨r, a'⟩
  cases r <;> rfl

theorem inv_realloc (a : Arena) (ptr : Option Nat) (old_size new_size : Nat)
    (hbound : new_size + 7 < W64)
    (h : ArenaInv a) : ArenaInv (arena_realloc a ptr old_size new_size).2 := by
  unfold arena_realloc
  split_ifs with h0
  · exact h
  cases ptr with
  | none => exact inv_alloc a new_size h
  | some p =>
    simp only
    rcases htp : tryInPlace a.blocks p (align_up old_size ARENA_ALIGNMENT)
        (align_up new_size ARENA_ALIGNMENT) with _ | bs'
    · rcases halloc : arena_alloc a new_size with ⟨r, a'⟩
      have hinv' : ArenaInv a' := by
        have hi := inv_alloc a new_size h
        rw [halloc] at hi
        exact hi
      cases r with
      | none => exact hinv'
      | some q => exact inv_of_eq a' _ rfl rfl hinv'
    · obtain ⟨hne, hwf, hal, hnz, hmf, hlm⟩ := h
      obtain ⟨hcaps, halign, hlast⟩ := tryInPlace_shape a.blocks p _ _ bs' htp
      have hnew8 : 8 ≤ align_up new_size ARENA_ALIGNMENT :=
        align_up_pos new_size (by omega) hbound
      have hbne : bs' ≠ [] := by
        intro hb
        apply hne
        rw [hb] at hcaps
        cases hbs : a.blocks with
        | nil => rfl
        | cons z zs =>
          rw [hbs] at hcaps
          simp [capsOf] at hcaps
      refine ⟨hbne, wfChain_tryInPlace a.blocks p _ _ bs' hwf htp, ?_, ?_, ?_, ?_⟩
      · exact halign ⟨align_up_dvd old_size, align_up_dvd new_size, hal⟩
      · intro hlen t' ht'
        obtain ⟨t, hta, htb, htc, htd⟩ := hlast t' ht'
        have hlen' : 1 < a.blocks.length := by
          have : bs'.length = a.blocks.length := by
            have h1 : (capsOf bs').length = (capsOf a.blocks).length := by rw [hcaps]
            simpa [capsOf] using h1
          have hlen2 : 1 < bs'.length := hlen
          omega
        rcases htd with htd | htd
        · subst htd
          exact hnz hlen' t' hta
        · rw [htb]
          rw [htd.2.1]
          have := htd.1
          omega
      · intro m hm
        have hm' : m ∈ a.markers := hm
        exact markerFits_congr a.blocks bs' m hcaps.symm (hmf m hm')
      · exact landMono_congr a.blocks bs' a.markers hcaps.symm hlm

theorem inv_calloc (a : Arena) (num size : Nat) (h : ArenaInv a) :
    ArenaInv (arena_calloc a num size).2 := by
  refine inv_of_eq (arena_alloc a ((num * size) % W64)).2 _ ?_ ?_ (inv_alloc a _ h)
  · exact (calloc_blocks a num size).symm
  · exact (calloc_markers a num size).symm

theorem inv_strdup (a : Arena) (s : Option (List Nat)) (h : ArenaInv a) :
    ArenaInv (arena_strdup a s).2 := by
  cases s with
  | none => exact h
  | some s =>
    refine inv_of_eq (arena_alloc a (s.length + 1)).2 _ ?_ ?_ (inv_alloc a _ h)
    · exact (strdup_blocks a s).symm
    · exact (strdup_markers a s).symm

theorem inv_reachableB (a : Arena) (h : ReachableB a) : ArenaInv a := by
  induction h with
  | create n => exact inv_create n
  | alloc a bytes _ ih => exact inv_alloc a bytes ih
  | calloc a num size _ ih => exact inv_calloc a num size ih
  | realloc a ptr old_size new_size hb _ ih => exact inv_realloc a ptr old_size new_size hb ih
  | strdup a s _ ih => exact inv_strdup a s ih
  | push a _ ih => exact inv_push a ih
  | pop a _ ih => exact inv_pop a ih
  | reset a _ ih => exact inv_reset a ih

/-! ### C5: bump monotonicity and alignment -/

/-- C5: in any state reachable with `size_t`-range requests, (1) two
consecutive successful `arena_alloc`s whose results land in the same
block (the second does not open a new block) return strictly increasing
pointers with disjoint regions `[p, p + align_up bytes)`, and (2) every
address returned by `arena_alloc` lies in a block of the resulting
chain at an offset from that block's base that is a multiple of 8. -/
theorem bump_monotonicity_alignment (a : Arena) (h : ReachableB a) :
    (∀ b1 b2 p1 p2 a1 a2,
      0 < b1 → b1 + 7 < W64 → 0 < b2 → b2 + 7 < W64 →
      arena_alloc a b1 = (some p1, a1) →
      arena_alloc a1 b2 = (some p2, a2) →
      a2.blocks.length = a1.blocks.length →
      p1 < p2 ∧ p1 + align_up b1 ARENA_ALIGNMENT ≤ p2) ∧
    (∀ bytes p a', 0 < bytes → bytes + 7 < W64 →
      arena_alloc a bytes = (some p, a') →
      ∃ b ∈ a'.blocks, b.base ≤ p ∧ p < b.«end» ∧ 8 ∣ (p - b.base)) := by
  obtain ⟨hne, hwf, hal, hnz, hmf, hlm⟩ := inv_reachableB a h
  constructor
  · intro b1 b2 p1 p2 a1 a2 hb1 hb1w hb2 hb2w h1 h2 hlen
    have ha1 := alloc_tail_only a b1 p1 a1 hwf h1
    have ha1ne : a1.blocks ≠ [] := by
      have := alloc_blocks_ne_nil a b1 hne
      rw [h1] at this
      exact this
    rcases ht1 : a1.blocks.getLast? with _ | t1
    · rw [List.getLast?_eq_none_iff] at ht1; exact absurd ht1 ha1ne
    obtain ⟨hbase1, hbump1, hwfb1, hshape1⟩ := ha1 t1 ht1
    have halign1 : 8 ≤ align_up b1 ARENA_ALIGNMENT := align_up_pos b1 hb1 hb1w
    rw [arena_alloc_spec a1 t1 b2 (by omega) ht1] at h2
    split_ifs at h2 with hcase
    · -- second alloc opened a new block: contradicts equal lengths
      exfalso
      rw [Prod.mk.injEq] at h2
      have := h2.2
      rw [← this] at hlen
      simp at hlen
    · rw [Prod.mk.injEq] at h2
      have hp2 : p2 = t1.bump := by
        have := h2.1
        rw [Option.some.injEq] at this
        omega
      subst hp2
      omega
  · intro bytes p a' hb hbw halloc
    have halign := align_up_pos bytes hb hbw
    rcases hbs : a.blocks.getLast? with _ | t
    · rw [List.getLast?_eq_none_iff] at hbs; exact absurd hbs hne
    have hwft := hwf t (List.mem_of_mem_getLast? hbs)
    have halt := hal t (List.mem_of_mem_getLast? hbs)
    rw [arena_alloc_spec a t bytes (by omega) hbs] at halloc
    split_ifs at halloc with hcase
    · rw [Prod.mk.injEq] at halloc
      have hp : p = a.fresh := by
        have := halloc.1
        rw [Option.some.injEq] at this
        omega
      subst hp
      have hgpos := grownSize_pos (blockCap t) (align_up bytes ARENA_ALIGNMENT)
      refine ⟨⟨a.fresh, a.fresh + align_up bytes ARENA_ALIGNMENT,
        a.fresh + grownSize (blockCap t) (align_up bytes ARENA_ALIGNMENT)⟩, ?_, ?_, ?_, ?_⟩
      · rw [← halloc.2]
        exact List.mem_append_right _ (List.mem_singleton.mpr rfl)
      · exact Nat.le_refl _
      · show a.fresh < a.fresh + grownSize (blockCap t) (align_up bytes ARENA_ALIGNMENT)
        omega
      · show (8 : Nat) ∣ a.fresh - a.fresh
        omega
    · rw [Prod.mk.injEq] at halloc
      have hp : p = t.bump := by
        have := halloc.1
        rw [Option.some.injEq] at this
        omega
      subst hp
      refine ⟨{ t with bump := t.bump + align_up bytes ARENA_ALIGNMENT }, ?_, ?_, ?_, ?_⟩
      · rw [← halloc.2]
        exact List.mem_append_right _ (List.mem_singleton.mpr rfl)
      · show t.base ≤ t.bump
        unfold wfB at hwft
        omega
      · show t.bump < t.«end»
        unfold wfB at hwft
        omega
      · show (8 : Nat) ∣ t.bump - t.base
        exact halt

/-- Concrete instance of `bump_monotonicity_alignment` at
`arena_create 1024` with requests 5 then 11: pointers 0 and 8. -/
theorem bump_monotonicity_alignment_w :
    (0 : Nat) < 8 ∧ 0 + align_up 5 ARENA_ALIGNMENT ≤ 8 := by
  have h := (bump_monotonicity_alignment (arena_create 1024) (ReachableB.create 1024)).1
    5 11 0 8 (arena_alloc (arena_create 1024) 5).2
    (arena_alloc (arena_alloc (arena_create 1024) 5).2 11).2
    (by norm_num) (by unfold W64; norm_num) (by norm_num) (by unfold W64; norm_num)
    rfl rfl rfl
  exact h

/-! ### C4: marker-stack monotonicity -/

theorem getpos_concat (l : List Block) (x : Block) :
    get_current_position (l ++ [x]) = capTotal l + (x.bump - x.base) := by
  rw [getpos_eq (l ++ [x]) x (List.getLast?_concat _), List.dropLast_concat]

theorem getpos_alloc_mono (a : Arena) (bytes : Nat) (hwf : wfChain a.blocks) :
    get_current_position a.blocks ≤ get_current_position (arena_alloc a bytes).2.blocks := by
  by_cases h0 : bytes = 0
  · rw [h0, arena_alloc_zero]
  rcases hbs : a.blocks.getLast? with _ | t
  · rw [List.getLast?_eq_none_iff] at hbs
    rw [arena_alloc_of_blocks_nil a bytes hbs]
  have hwft := hwf t (List.mem_of_mem_getLast? hbs)
  have hdec := List.dropLast_append_getLast? t hbs
  have hold : get_current_position a.blocks
      = capTotal a.blocks.dropLast + (t.bump - t.base) := getpos_eq a.blocks t hbs
  rw [arena_alloc_spec a t bytes h0 hbs]
  split_ifs with hcase
  · show get_current_position a.blocks ≤ get_current_position (a.blocks ++ [_])
    rw [getpos_concat]
    have hle := getpos_le_capTotal a.blocks hwf
    show get_current_position a.blocks
      ≤ capTotal a.blocks + (a.fresh + align_up bytes ARENA_ALIGNMENT - a.fresh)
    omega
  · show get_current_position a.blocks
      ≤ get_current_position (a.blocks.dropLast ++ [{ t with bump := t.bump + align_up bytes ARENA_ALIGNMENT }])
    rw [getpos_concat, hold]
    show capTotal a.blocks.dropLast + (t.bump - t.base)
      ≤ capTotal a.blocks.dropLast + (t.bump + align_up bytes ARENA_ALIGNMENT - t.base)
    omega

theorem capTotal_dropLast_congr (bs1 bs2 : List Block) (h : capsOf bs1 = capsOf bs2) :
    capTotal bs1.dropLast = capTotal bs2.dropLast := by
  rw [capTotal_eq_sum_capsOf, capTotal_eq_sum_capsOf]
  show (List.map blockCap bs1.dropLast).sum = (List.map blockCap bs2.dropLast).sum
  rw [List.map_dropLast, List.map_dropLast]
  have h2 : List.map blockCap bs1 = List.map blockCap bs2 := h
  rw [h2]

theorem getpos_tryInPlace_mono (bs : List Block) (p old new : Nat) (bs' : List Block)
    (h : tryInPlace bs p old new = some bs')
    (hgrow : old ≤ new) (hne : bs ≠ []) :
    get_current_position bs ≤ get_current_position bs' := by
  obtain ⟨hcaps, _, hlast⟩ := tryInPlace_shape bs p old new bs' h
  have hbne : bs' ≠ [] := by
    intro hb
    apply hne
    rw [hb] at hcaps
    cases hbs : bs with
    | nil => rfl
    | cons z zs =>
      rw [hbs] at hcaps
      simp [capsOf] at hcaps
  rcases ht' : bs'.getLast? with _ | t'
  · rw [List.getLast?_eq_none_iff] at ht'; exact absurd ht' hbne
  obtain ⟨t, hta, htb, htc, htd⟩ := hlast t' ht'
  have hdl := capTotal_dropLast_congr bs bs' hcaps.symm
  rw [getpos_eq bs t hta, getpos_eq bs' t' ht', hdl, htb]
  rcases htd with htd | htd
  · rw [htd]
  · rw [htd.2.1, htd.2.2]
    have := htd.1
    omega

theorem minvG_alloc (a : Arena) (bytes : Nat) (h : MInvG a) :
    MInvG (arena_alloc a bytes).2 := by
  obtain ⟨hne, hwf, hsort, hbound⟩ := h
  refine ⟨alloc_blocks_ne_nil a bytes hne, wfChain_alloc a bytes hwf, ?_, ?_⟩
  · rw [alloc_markers]
    exact hsort
  · intro m hm
    rw [alloc_markers] at hm
    have := hbound m hm
    have := getpos_alloc_mono a bytes hwf
    omega

theorem minvG_push (a : Arena) (h : MInvG a) : MInvG (arena_push_marker a) := by
  obtain ⟨hne, hwf, hsort, hbound⟩ := h
  refine ⟨hne, hwf, ?_, ?_⟩
  · show List.Pairwise _ (a.markers ++ [get_current_position a.blocks])
    rw [List.pairwise_append]
    refine ⟨hsort, List.pairwise_singleton _ _, ?_⟩
    intro x hx y hy
    rw [List.mem_singleton] at hy
    subst hy
    exact hbound x hx
  · intro m hm
    have hm2 : m ∈ a.markers ++ [get_current_position a.blocks] := hm
    rw [List.mem_append, List.mem_singleton] at hm2
    show m ≤ get_current_position a.blocks
    rcases hm2 with hm2 | hm2
    · exact hbound m hm2
    · omega

theorem minvG_pop (a : Arena) (h : MInvG a) : MInvG (arena_pop_marker a) := by
  obtain ⟨hne, hwf, hsort, hbound⟩ := h
  unfold arena_pop_marker
  rcases hms : a.markers.getLast? with _ | g
  · exact ⟨hne, hwf, hsort, hbound⟩
  have hmdec := List.dropLast_append_getLast? g hms
  have hg := hbound g (List.mem_of_mem_getLast? hms)
  have hgcap : g ≤ capTotal a.blocks :=
    le_trans hg (getpos_le_capTotal a.blocks hwf)
  have hpos' : get_current_position (popWalk a.blocks g 0) = g := by
    have := popWalk_pos a.blocks g 0 hwf hne (Nat.zero_le g) (by omega)
    omega
  refine ⟨popWalk_ne_nil a.blocks g 0 hne, wfChain_popWalk a.blocks g 0 hwf, ?_, ?_⟩
  · show List.Pairwise _ a.markers.dropLast
    exact hsort.sublist (List.dropLast_sublist _)
  · intro m hm
    have hm' : m ∈ a.markers.dropLast := hm
    show m ≤ get_current_position (popWalk a.blocks g 0)
    rw [hpos']
    have hcross := hsort
    rw [← hmdec, List.pairwise_append] at hcross
    exact hcross.2.2 m hm' g (List.mem_singleton.mpr rfl)

theorem minvG_reset (a : Arena) (h : MInvG a) : MInvG (arena_reset a) := by
  obtain ⟨hne, hwf, hsort, hbound⟩ := h
  rcases hbs : a.blocks with _ | ⟨b, rest⟩
  · exact absurd hbs hne
  have hblocks := arena_reset_blocks a b rest hbs
  have hmarkers : (arena_reset a).markers = [] := by
    unfold arena_reset
    rw [hbs]
  refine ⟨by rw [hblocks]; simp, wfChain_reset a hwf, ?_, ?_⟩
  · rw [hmarkers]
    exact List.Pairwise.nil
  · rw [hmarkers]
    intro m hm
    simp at hm

theorem minvG_realloc (a : Arena) (ptr : Option Nat) (old_size new_size : Nat)
    (hgrow : align_up old_size ARENA_ALIGNMENT ≤ align_up new_size ARENA_ALIGNMENT)
    (h : MInvG a) : MInvG (arena_realloc a ptr old_size new_size).2 := by
  unfold arena_realloc
  split_ifs with h0
  · exact h
  cases ptr with
  | none => exact minvG_alloc a new_size h
  | some p =>
    simp only
    rcases htp : tryInPlace a.blocks p (align_up old_size ARENA_ALIGNMENT)
        (align_up new_size ARENA_ALIGNMENT) with _ | bs'
    · rcases halloc : arena_alloc a new_size with ⟨r, a'⟩
      have hinv' : MInvG a' := by
        have hi := minvG_alloc a new_size h
        rw [halloc] at hi
        exact hi
      cases r with
      | none => exact hinv'
      | some q =>
        obtain ⟨h1, h2, h3, h4⟩ := hinv'
        exact ⟨h1, h2, h3, h4⟩
    · obtain ⟨hne, hwf, hsort, hbound⟩ := h
      have hmono := getpos_tryInPlace_mono a.blocks p _ _ bs' htp hgrow hne
      obtain ⟨hcaps, _, _⟩ := tryInPlace_shape a.blocks p _ _ bs' htp
      have hbne : bs' ≠ [] := by
        intro hb
        apply hne
        rw [hb] at hcaps
        cases hbs : a.blocks with
        | nil => rfl
        | cons z zs =>
          rw [hbs] at hcaps
          simp [capsOf] at hcaps
      refine ⟨hbne, wfChain_tryInPlace a.blocks p _ _ bs' hwf htp, hsort, ?_⟩
      intro m hm
      have hm' : m ∈ a.markers := hm
      have := hbound m hm'
      show m ≤ get_current_position bs'
      omega

theorem minvG_calloc (a : Arena) (num size : Nat) (h : MInvG a) :
    MInvG (arena_calloc a num size).2 := by
  have hi := minvG_alloc a ((num * size) % W64) h
  unfold MInvG at hi ⊢
  rw [calloc_blocks, calloc_markers]
  exact hi

theorem minvG_strdup (a : Arena) (s : Option (List Nat)) (h : MInvG a) :
    MInvG (arena_strdup a s).2 := by
  cases s with
  | none => exact h
  | some s =>
    have hi := minvG_alloc a (s.length + 1) h
    unfold MInvG at hi ⊢
    rw [strdup_blocks, strdup_markers]
    exact hi

theorem minvG_create (n : Nat) : MInvG (arena_create n) := by
  refine ⟨by simp [arena_create], wfChain_create n, ?_, ?_⟩
  · show List.Pairwise _ ([] : List Nat)
    exact List.Pairwise.nil
  · intro m hm
    simp [arena_create] at hm

theorem minvG_reachableG (a : Arena) (h : ReachableG a) : MInvG a := by
  induction h with
  | create n => exact minvG_create n
  | alloc a bytes _ ih => exact minvG_alloc a bytes ih
  | calloc a num size _ ih => exact minvG_calloc a num size ih
  | realloc a ptr old_size new_size hgrow _ ih =>
    exact minvG_realloc a ptr old_size new_size hgrow ih
  | strdup a s _ ih => exact minvG_strdup a s ih
  | push a _ ih => exact minvG_push a ih
  | pop a _ ih => exact minvG_pop a ih
  | reset a _ ih => exact minvG_reset a ih

/-- C4 (amended): if in-place-shrinking `arena_realloc` (aligned new
size below aligned old size) is excluded from the operation sequence,
then in every reachable state the marker stack is monotonically
non-decreasing from bottom to top and every stored offset is at most
the current total chain capacity (hence at most the capacity at the
time it was pushed).  With shrinking realloc allowed, monotonicity
fails — see `marker_stack_monotone_cx`. -/
theorem marker_stack_monotone (a : Arena) (h : ReachableG a) :
    List.Pairwise (fun x y => x ≤ y) a.markers ∧
    ∀ m ∈ a.markers, m ≤ capTotal a.blocks := by
  obtain ⟨hne, hwf, hsort, hbound⟩ := minvG_reachableG a h
  refine ⟨hsort, ?_⟩
  intro m hm
  have h1 := hbound m hm
  have h2 := getpos_le_capTotal a.blocks hwf
  omega

/-- C4 counterexample for the claim as stated: the state reached by
`create 1024; alloc 16; push_marker; realloc(ptr 0, 16, 8);
push_marker` — a sequence of the public operations — has marker stack
`[16, 8]`, which is not monotonically non-decreasing: the in-place
shrink lowered the global position below the first recorded marker. -/
theorem marker_stack_monotone_cx :
    Reachable (arena_push_marker (arena_realloc (arena_push_marker
      (arena_alloc (arena_create 1024) 16).2) (some 0) 16 8).2) ∧
    (arena_push_marker (arena_realloc (arena_push_marker
      (arena_alloc (arena_create 1024) 16).2) (some 0) 16 8).2).markers = [16, 8] ∧
    ¬ List.Pairwise (fun x y : Nat => x ≤ y) [16, 8] := by
  refine ⟨?_, by decide, by decide⟩
  exact Reachable.push _ (Reachable.realloc _ (some 0) 16 8
    (Reachable.push _ (Reachable.alloc _ 16 (Reachable.create 1024))))

/-- Concrete instance of `marker_stack_monotone`: after `create 1024;
alloc 16; push; alloc 8; push` the stack is `[16, 24]`, sorted, and the
top entry is within the 1024-byte capacity. -/
theorem marker_stack_monotone_w :
    List.Pairwise (fun x y : Nat => x ≤ y)
      (arena_push_marker ((arena_alloc (arena_push_marker
        (arena_alloc (arena_create 1024) 16).2) 8).2)).markers ∧
    (24 : Nat) ≤ capTotal (arena_push_marker ((arena_alloc (arena_push_marker
        (arena_alloc (arena_create 1024) 16).2) 8).2)).blocks := by
  have h := marker_stack_monotone _ (ReachableG.push _ (ReachableG.alloc _ 8
    (ReachableG.push _ (ReachableG.alloc _ 16 (ReachableG.create 1024)))))
  exact ⟨h.1, h.2 24 (by decide)⟩
